import Mathlib

/-!
# LTC2309 ADC test application (adc-ltc2309.c)

A shallow embedding of the pin tables, the pin resolver (`header_info` and the
parsing lines of `print_pin_info`), the sample protocol (`read_pin_value`), the
value converter (`adc_convert_value`) and the per-pin aggregation loop of
`print_pin_info`, followed by the properties established for them.

Conventions of the embedding.

* A C string is a `List Char` holding the bytes before the terminating NUL.
* The values the C standard leaves to the implementation are collected in
  `Target`: the size of a pointer (which the source uses, through
  `sizeof(name)` and `sizeof(h_name)`, as a byte count) and the signedness of
  plain `char`.  `size_t` and `unsigned long` have the width of a pointer.
* The transport of `i2c.h` is external: a `Bus` carries the answers the
  transport will give, one per transaction, and the log of the transactions
  performed so far.
* Undefined behaviour (a null pointer handed to `strncmp`, an index outside a
  table) is the result `none`.  The sampling functions are given a second time,
  with the suffix `_at`, as the compiled program runs them: a lookup outside
  `ADC_ADDR` continues with the byte found behind the table.
-/

namespace Ltc2309

/-! ## Target parameters and integer conversions -/

/-- Implementation-defined parameters of the C target. -/
structure Target where
  /-- The value of sizeof(char *), in bytes. -/
  ptr_size : Nat
  /-- Whether plain char is a signed type. -/
  char_signed : Bool
  deriving DecidableEq, Repr

/-- Number of values of size_t and of unsigned long (both pointer-wide). -/
def word_mod (t : Target) : Nat := 2 ^ (8 * t.ptr_size)

/-- Conversion of an int to plain char (8 bits, wrapping). -/
def to_char (t : Target) (x : Int) : Int :=
  let b := x % 256
  if t.char_signed && decide (128 ≤ b) then b - 256 else b

/-- Conversion of a (promoted) char to size_t, as the comparison with
ARRARY_SIZE(..) performs it. -/
def to_size_t (t : Target) (x : Int) : Nat := (x % (word_mod t : Int)).toNat

/-! ## Topology registry (lines 76-245) -/

def CHIP_ADC0 : Nat := 0
def CHIP_ADC1 : Nat := 1
def CHIP_ADC2 : Nat := 2
def CHIP_ADC3 : Nat := 3
def CHIP_ADC4 : Nat := 4
def CHIP_ADC5 : Nat := 5
def CHIP_ADC_CNT : Nat := 6
def NOT_USED : Nat := 7

def ADC_ADDR : List Nat := [0x08, 0x09, 0x0A, 0x0B, 0x18, 0x19]

def ADC_CH : List Nat := [0x88, 0xC8, 0x98, 0xD8, 0xA8, 0xE8, 0xB8, 0xF8]

structure pin_info where
  name : String
  pin_num : Nat
  adc_idx : Nat
  ch_idx : Nat
  deriving DecidableEq, Repr

def HEADER_CON1 : List pin_info := [
  ⟨"CON1.0", 0, NOT_USED, 0⟩,
  ⟨"CON1.1", 1, CHIP_ADC0, 0⟩,
  ⟨"CON1.2", 2, CHIP_ADC0, 1⟩,
  ⟨"CON1.3", 3, CHIP_ADC1, 0⟩,
  ⟨"CON1.4", 4, CHIP_ADC0, 2⟩,
  ⟨"CON1.5", 5, CHIP_ADC1, 1⟩,
  ⟨"CON1.6", 6, NOT_USED, 0⟩,
  ⟨"CON1.7", 7, CHIP_ADC1, 2⟩,
  ⟨"CON1.8", 8, CHIP_ADC1, 3⟩,
  ⟨"CON1.9", 9, NOT_USED, 0⟩,
  ⟨"CON1.10", 10, CHIP_ADC1, 4⟩,
  ⟨"CON1.11", 11, CHIP_ADC1, 5⟩,
  ⟨"CON1.12", 12, CHIP_ADC1, 6⟩,
  ⟨"CON1.13", 13, CHIP_ADC1, 7⟩,
  ⟨"CON1.14", 14, NOT_USED, 0⟩,
  ⟨"CON1.15", 15, CHIP_ADC2, 0⟩,
  ⟨"CON1.16", 16, CHIP_ADC2, 1⟩,
  ⟨"CON1.17", 17, CHIP_ADC0, 3⟩,
  ⟨"CON1.18", 18, CHIP_ADC2, 2⟩,
  ⟨"CON1.19", 19, CHIP_ADC2, 3⟩,
  ⟨"CON1.20", 20, NOT_USED, 0⟩,
  ⟨"CON1.21", 21, CHIP_ADC2, 4⟩,
  ⟨"CON1.22", 22, CHIP_ADC2, 5⟩,
  ⟨"CON1.23", 23, CHIP_ADC2, 6⟩,
  ⟨"CON1.24", 24, CHIP_ADC2, 7⟩,
  ⟨"CON1.25", 25, NOT_USED, 0⟩,
  ⟨"CON1.26", 26, CHIP_ADC3, 0⟩,
  ⟨"CON1.27", 27, CHIP_ADC3, 1⟩,
  ⟨"CON1.28", 28, CHIP_ADC3, 2⟩,
  ⟨"CON1.29", 29, CHIP_ADC3, 3⟩,
  ⟨"CON1.30", 30, NOT_USED, 0⟩,
  ⟨"CON1.31", 31, CHIP_ADC3, 4⟩,
  ⟨"CON1.32", 32, CHIP_ADC3, 5⟩,
  ⟨"CON1.33", 33, CHIP_ADC3, 6⟩,
  ⟨"CON1.34", 34, NOT_USED, 0⟩,
  ⟨"CON1.35", 35, CHIP_ADC3, 7⟩,
  ⟨"CON1.36", 36, CHIP_ADC4, 0⟩,
  ⟨"CON1.37", 37, NOT_USED, 0⟩,
  ⟨"CON1.38", 38, CHIP_ADC0, 4⟩,
  ⟨"CON1.39", 39, NOT_USED, 0⟩,
  ⟨"CON1.40", 40, NOT_USED, 0⟩]

def HEADER_P3 : List pin_info := [
  ⟨"P3.0", 0, NOT_USED, 0⟩,
  ⟨"P3.1", 1, NOT_USED, 0⟩,
  ⟨"P3.2", 2, CHIP_ADC5, 0⟩,
  ⟨"P3.3", 3, CHIP_ADC5, 1⟩,
  ⟨"P3.4", 4, NOT_USED, 0⟩,
  ⟨"P3.5", 5, CHIP_ADC5, 2⟩,
  ⟨"P3.6", 6, CHIP_ADC5, 3⟩,
  ⟨"P3.7", 7, NOT_USED, 0⟩,
  ⟨"P3.8", 8, CHIP_ADC5, 4⟩,
  ⟨"P3.9", 9, CHIP_ADC5, 5⟩,
  ⟨"P3.10", 10, NOT_USED, 0⟩]

def HEADER_P13 : List pin_info := [
  ⟨"P13.0", 0, NOT_USED, 0⟩,
  ⟨"P13.1", 1, NOT_USED, 0⟩,
  ⟨"P13.2", 2, CHIP_ADC4, 1⟩,
  ⟨"P13.3", 3, CHIP_ADC0, 5⟩,
  ⟨"P13.4", 4, CHIP_ADC4, 2⟩,
  ⟨"P13.5", 5, CHIP_ADC4, 3⟩,
  ⟨"P13.6", 6, CHIP_ADC4, 4⟩,
  ⟨"P13.7", 7, CHIP_ADC4, 5⟩]

def HEADER_P1_1 : List pin_info := [
  ⟨"P1-1.0", 0, NOT_USED, 0⟩,
  ⟨"P1-1.1", 1, CHIP_ADC0, 0⟩,
  ⟨"P1-1.2", 2, CHIP_ADC0, 1⟩,
  ⟨"P1-1.3", 3, CHIP_ADC0, 2⟩,
  ⟨"P1-1.4", 4, CHIP_ADC0, 3⟩,
  ⟨"P1-1.5", 5, CHIP_ADC0, 4⟩,
  ⟨"P1-1.6", 6, CHIP_ADC0, 5⟩,
  ⟨"P1-1.7", 7, CHIP_ADC0, 6⟩,
  ⟨"P1-1.8", 8, CHIP_ADC0, 7⟩]

def HEADER_P1_2 : List pin_info := [
  ⟨"P1-2.0", 0, NOT_USED, 0⟩,
  ⟨"P1-2.1", 1, CHIP_ADC1, 0⟩,
  ⟨"P1-2.2", 2, CHIP_ADC1, 1⟩,
  ⟨"P1-2.3", 3, CHIP_ADC1, 2⟩,
  ⟨"P1-2.4", 4, CHIP_ADC1, 3⟩,
  ⟨"P1-2.5", 5, CHIP_ADC1, 4⟩,
  ⟨"P1-2.6", 6, CHIP_ADC1, 5⟩,
  ⟨"P1-2.7", 7, CHIP_ADC1, 6⟩,
  ⟨"P1-2.8", 8, CHIP_ADC1, 7⟩]

def HEADER_P1_3 : List pin_info := [
  ⟨"P1-3.0", 0, NOT_USED, 0⟩,
  ⟨"P1-3.1", 1, CHIP_ADC2, 0⟩,
  ⟨"P1-3.2", 2, CHIP_ADC2, 1⟩,
  ⟨"P1-3.3", 3, CHIP_ADC2, 2⟩,
  ⟨"P1-3.4", 4, CHIP_ADC2, 3⟩,
  ⟨"P1-3.5", 5, CHIP_ADC2, 4⟩,
  ⟨"P1-3.6", 6, CHIP_ADC2, 5⟩,
  ⟨"P1-3.7", 7, CHIP_ADC2, 6⟩,
  ⟨"P1-3.8", 8, CHIP_ADC2, 7⟩]

def HEADER_P1_4 : List pin_info := [
  ⟨"P1-4.0", 0, NOT_USED, 0⟩,
  ⟨"P1-4.1", 1, CHIP_ADC3, 0⟩,
  ⟨"P1-4.2", 2, CHIP_ADC3, 1⟩,
  ⟨"P1-4.3", 3, CHIP_ADC3, 2⟩,
  ⟨"P1-4.4", 4, CHIP_ADC3, 3⟩,
  ⟨"P1-4.5", 5, CHIP_ADC3, 4⟩,
  ⟨"P1-4.6", 6, CHIP_ADC3, 5⟩,
  ⟨"P1-4.7", 7, CHIP_ADC3, 6⟩,
  ⟨"P1-4.8", 8, CHIP_ADC3, 7⟩]

def HEADER_P1_5 : List pin_info := [
  ⟨"P1-5.0", 0, NOT_USED, 0⟩,
  ⟨"P1-5.1", 1, CHIP_ADC4, 0⟩,
  ⟨"P1-5.2", 2, CHIP_ADC4, 1⟩,
  ⟨"P1-5.3", 3, CHIP_ADC4, 2⟩,
  ⟨"P1-5.4", 4, CHIP_ADC4, 3⟩,
  ⟨"P1-5.5", 5, CHIP_ADC4, 4⟩,
  ⟨"P1-5.6", 6, CHIP_ADC4, 5⟩,
  ⟨"P1-5.7", 7, CHIP_ADC4, 6⟩,
  ⟨"P1-5.8", 8, CHIP_ADC4, 7⟩]

def HEADER_P1_6 : List pin_info := [
  ⟨"P1-6.0", 0, NOT_USED, 0⟩,
  ⟨"P1-6.1", 1, CHIP_ADC5, 0⟩,
  ⟨"P1-6.2", 2, CHIP_ADC5, 1⟩,
  ⟨"P1-6.3", 3, CHIP_ADC5, 2⟩,
  ⟨"P1-6.4", 4, CHIP_ADC5, 3⟩,
  ⟨"P1-6.5", 5, CHIP_ADC5, 4⟩,
  ⟨"P1-6.6", 6, CHIP_ADC5, 5⟩,
  ⟨"P1-6.7", 7, CHIP_ADC5, 6⟩,
  ⟨"P1-6.8", 8, CHIP_ADC5, 7⟩]

/-! ## C library functions used by the resolver -/

/-- The function toupper of the C locale. -/
def toupper (c : Char) : Char := c.toUpper

/-- Source lines 281-290, toupper_str: the loop leaves after the character at
index 11 (the test cnt++ > 10 first succeeds there), so at most the first
twelve characters are converted. -/
def toupper_str (str : List Char) : List Char :=
  (str.take 12).map toupper ++ str.drop 12

/-- The function strncmp: compares at most n characters and stops after a
terminating NUL.  The C standard fixes the sign of the result only: zero when
no difference was met, negative or positive as the first differing character
(as unsigned char, the end of a string counting as NUL) is smaller or larger. -/
def strncmp : List Char → List Char → Nat → Int
  | _, _, 0 => 0
  | [], [], _ + 1 => 0
  | [], _ :: _, _ + 1 => -1
  | _ :: _, [], _ + 1 => 1
  | a :: s1, b :: s2, n + 1 =>
    if a = b then strncmp s1 s2 n else if a.toNat < b.toNat then -1 else 1

/-- The function strtok on the string s with the delimiter set delim: the token
found (none for a null pointer) and the position saved for the next call.
Leading delimiters are skipped; the token runs up to the next delimiter, which
is overwritten by NUL, or to the end of the string. -/
def strtok (s : List Char) (delim : List Char) : Option (List Char) × List Char :=
  let s1 := s.dropWhile (fun c => delim.contains c)
  if s1.isEmpty then (none, [])
  else (some (s1.takeWhile (fun c => !delim.contains c)),
        (s1.dropWhile (fun c => !delim.contains c)).drop 1)

/-- The function isspace of the C locale. -/
def isspace (c : Char) : Bool :=
  c.toNat = 32 || (9 ≤ c.toNat && c.toNat ≤ 13)

/-- The digits read by atoi, accumulated in base ten. -/
def atoi_digits : List Char → Nat → Nat
  | [], acc => acc
  | c :: cs, acc =>
    if 48 ≤ c.toNat ∧ c.toNat ≤ 57 then atoi_digits cs (acc * 10 + (c.toNat - 48)) else acc

/-- The function atoi: white space, an optional sign, decimal digits, as the
exact integer (atoi is undefined when that does not fit an int).  The pin
strings of print_pin_info have fewer than eight characters, so their value is
below 10^8 and fits. -/
def atoi (s : List Char) : Int :=
  match s.dropWhile isspace with
  | '-' :: r => - (atoi_digits r 0 : Int)
  | '+' :: r => (atoi_digits r 0 : Int)
  | r => (atoi_digits r 0 : Int)

/-! ## Pin resolver (lines 305-372) -/

/-- A pointer into a header table together with the count stored through
p_cnt: the entries tbl[start], ..., tbl[start + cnt - 1]. -/
structure Span where
  tbl : List pin_info
  start : Nat
  cnt : Nat
  deriving DecidableEq, Repr

/-- The three statements every matching branch of header_info executes for its
table: clamp pin_no by ARRARY_SIZE(tbl) (the char is promoted and converted to
size_t for the comparison), then choose the pointer and the count.  The counts
ARRARY_SIZE(tbl) - 1 of the nine tables are at most 40 and fit the char behind
p_cnt. -/
def header_branch (t : Target) (tbl : List pin_info) (pin_no : Int) : Span :=
  let pin_no := if to_size_t t pin_no < tbl.length then pin_no else 0
  ⟨tbl, if pin_no ≠ 0 then pin_no.toNat else 1, if pin_no ≠ 0 then 1 else tbl.length - 1⟩

/-- Source lines 305-350, header_info.  The third argument of every strncmp is
sizeof(h_name), the size of a pointer. -/
def header_info (t : Target) (h_name : List Char) (pin_no : Int) : Span :=
  if strncmp "CON1".toList h_name t.ptr_size = 0 then header_branch t HEADER_CON1 pin_no
  else if strncmp "P3".toList h_name t.ptr_size = 0 then header_branch t HEADER_P3 pin_no
  else if strncmp "P13".toList h_name t.ptr_size = 0 then header_branch t HEADER_P13 pin_no
  else if strncmp "P1_1".toList h_name t.ptr_size = 0 then header_branch t HEADER_P1_1 pin_no
  else if strncmp "P1_2".toList h_name t.ptr_size = 0 then header_branch t HEADER_P1_2 pin_no
  else if strncmp "P1_3".toList h_name t.ptr_size = 0 then header_branch t HEADER_P1_3 pin_no
  else if strncmp "P1_4".toList h_name t.ptr_size = 0 then header_branch t HEADER_P1_4 pin_no
  else if strncmp "P1_5".toList h_name t.ptr_size = 0 then header_branch t HEADER_P1_5 pin_no
  else if strncmp "P1_6".toList h_name t.ptr_size = 0 then header_branch t HEADER_P1_6 pin_no
  else ⟨HEADER_CON1, 0, 0⟩

/-- Source lines 363-370 of print_pin_info: the string left in str by memset
and memcpy(str, name, sizeof(name)) is the first sizeof(name) bytes of name
(bytes copied from behind a shorter name lie behind its NUL and are never
read); then the two strtok calls, toupper_str and atoi.  The result is h_name
(none for a null pointer) and the char pin_no. -/
def parse_name (t : Target) (name : List Char) : Option (List Char) × Int :=
  let str := name.take t.ptr_size
  let tok1 := strtok str ['.']
  let h_name := tok1.1.map toupper_str
  let tok2 := strtok tok1.2 [' ']
  let pin_no : Int :=
    match tok2.1 with
    | some pin_str => to_char t (atoi pin_str)
    | none => 0
  (h_name, pin_no)

/-- Source lines 363-372 of print_pin_info: parsing followed by header_info.
A null h_name reaches strncmp unchecked, which is undefined: none. -/
def resolve (t : Target) (name : List Char) : Option Span :=
  match parse_name t name with
  | (some h_name, pin_no) => some (header_info t h_name pin_no)
  | (none, _) => none

/-- The entries a span designates, none when it leaves its table. -/
def Span.entries (s : Span) : Option (List pin_info) :=
  if s.cnt = 0 then some []
  else if s.start + s.cnt ≤ s.tbl.length then some ((s.tbl.drop s.start).take s.cnt)
  else none

/-- The nine header keys of header_info, each with its table. -/
def HEADERS : List (String × List pin_info) :=
  [("CON1", HEADER_CON1), ("P3", HEADER_P3), ("P13", HEADER_P13),
   ("P1_1", HEADER_P1_1), ("P1_2", HEADER_P1_2), ("P1_3", HEADER_P1_3),
   ("P1_4", HEADER_P1_4), ("P1_5", HEADER_P1_5), ("P1_6", HEADER_P1_6)]

/-- Targets with 8-byte pointers (LP64), of either char signedness. -/
def lp64 (char_signed : Bool) : Target := ⟨8, char_signed⟩

/-! ## Transport (i2c.h) -/

/-- A transaction on the two-wire bus. -/
inductive BusOp where
  | set_addr (addr : Nat)
  | read_word (cmd : Nat)
  deriving DecidableEq, Repr

/-- The bus as the program sees it: resp k is the value the transport returns
for the k-th transaction (counted from 0), log the transactions performed so
far, oldest first. -/
structure Bus where
  resp : Nat → Int
  log : List BusOp

/-- Modelled from the spec: i2c_set_addr of i2c.h, which is not part of the
source; the transport selects the target chip address and returns an int (0 on
success, as the test at line 261 reads it). -/
def i2c_set_addr (b : Bus) (addr : Nat) : Int × Bus :=
  (b.resp b.log.length, ⟨b.resp, b.log ++ [BusOp.set_addr addr]⟩)

/-- Modelled from the spec: i2c_read_word of i2c.h, which is not part of the
source; one word-sized read transaction that returns either a valid unsigned
word or a negative failure value. -/
def i2c_read_word (b : Bus) (cmd : Nat) : Int × Bus :=
  (b.resp b.log.length, ⟨b.resp, b.log ++ [BusOp.read_word cmd]⟩)

/-! ## Sample protocol and value converter (lines 69-74, 257-278) -/

/-- Source line 69, the macro SWAP_WORD, on a non-negative int.  The mask
0xFF00 keeps bits 8..15 of x << 8 only, which a 32-bit int holds unchanged. -/
def SWAP_WORD (x : Nat) : Nat := ((x >>> 8) &&& 0xFF) ||| ((x <<< 8) &&& 0xFF00)

def ADC_REF_VOLTAGE : Nat := 5

def ADC_WEIGHT_uV : Nat := (ADC_REF_VOLTAGE * 1000000) / 4096

/-- Source lines 265-266 of read_pin_value: a negative word becomes 0, then the
12-bit code is extracted. -/
def raw_code (read_val : Int) : Nat :=
  let read_val : Int := if read_val < 0 then 0 else read_val
  (SWAP_WORD read_val.toNat >>> 4) &&& 0xFFF

/-- Source lines 257-270, read_pin_value.  The lookups ADC_ADDR[adc_idx] and
ADC_CH[ch_idx] are undefined outside their tables. -/
def read_pin_value (info : pin_info) (b : Bus) : Option (Nat × Bus) :=
  match ADC_ADDR[info.adc_idx]? with
  | none => none
  | some addr =>
    let r := i2c_set_addr b addr
    if r.1 = 0 then
      match ADC_CH[info.ch_idx]? with
      | none => none
      | some cmd =>
        let dummy := i2c_read_word r.2 cmd
        let res := i2c_read_word dummy.2 cmd
        some (raw_code res.1, res.2)
    else some (0, r.2)

/-- Source lines 273-278, adc_convert_value.  The parameter is an unsigned
short; the int product is at most 65535 * 1220 and cannot overflow. -/
def adc_convert_value (opt_unit : Nat) (adc_value : Nat) : Nat :=
  let volt := (adc_value % 65536) * ADC_WEIGHT_uV
  if opt_unit ≠ 0 then volt else volt / 1000

/-! ## Aggregator and report (lines 252-254, 353-420) -/

/-- The option variables opt_view, opt_iter and opt_unit (unsigned char). -/
structure Opts where
  opt_view : Nat
  opt_iter : Nat
  opt_unit : Nat
  deriving DecidableEq, Repr

/-- Source lines 468-471 of parse_opts: the int of atoi is stored in the
unsigned char opt_iter, then limited to 100. -/
def parse_iter (optarg : List Char) : Nat :=
  let opt_iter := (atoi optarg % 256).toNat
  if opt_iter > 100 then 100 else opt_iter

/-- One converted sample: adc_convert_value(read_pin_value(fd, p)). -/
def sample (o : Opts) (p : pin_info) (b : Bus) : Option (Nat × Bus) :=
  match read_pin_value p b with
  | none => none
  | some (v, b1) => some (adc_convert_value o.opt_unit v, b1)

/-- The variables avr, max, min and real of print_pin_info (unsigned long). -/
structure Acc where
  avr : Nat
  max : Nat
  min : Nat
  real : Nat
  deriving DecidableEq, Repr

/-- Source lines 387-392: the loop while (iter--), for a counter that starts at
iter. -/
def iter_loop (t : Target) (o : Opts) (p : pin_info) : Nat → Acc → Bus → Option (Acc × Bus)
  | 0, a, b => some (a, b)
  | iter + 1, a, b =>
    let avr := (a.avr + a.real) % word_mod t
    let max := if a.real > a.max then a.real else a.max
    let min := if a.real < a.min then a.real else a.min
    match sample o p b with
    | none => none
    | some (real, b1) => iter_loop t o p iter ⟨avr, max, min, real⟩ b1

/-- The figures reported for one pin. -/
structure Stats where
  avr : Nat
  max : Nat
  min : Nat
  deriving DecidableEq, Repr

/-- The difference max - min of line 399, in unsigned long arithmetic. -/
def Stats.diff (t : Target) (s : Stats) : Nat := (s.max + word_mod t - s.min) % word_mod t

/-- Source lines 383-394: the statistics of one pin.  The counter iter is a
char holding opt_iter - 1, and the loop runs until its eight bits are zero,
that is opt_iter - 1 times for every opt_iter an unsigned char can hold. -/
def pin_stats (t : Target) (o : Opts) (p : pin_info) (b : Bus) : Option (Stats × Bus) :=
  match sample o p b with
  | none => none
  | some (real, b1) =>
    let iter := if o.opt_iter > 0 then o.opt_iter - 1 else 0
    match iter_loop t o p iter ⟨real, real, real, real⟩ b1 with
    | none => none
    | some (a, b2) =>
      let avr := if o.opt_iter ≠ 0 then a.avr / o.opt_iter else a.avr
      some (⟨avr, a.max, a.min⟩, b2)

/-- What print_pin_info writes to stdout. -/
inductive Out where
  | banner
  | row (name : String) (avr max min diff : Nat)
  | value (avr : Nat)
  | newline
  deriving DecidableEq, Repr

/-- Source lines 382-401: the loop over the pins of the span, the pointer at
index idx of tbl and cnt pins still to go.  Reading behind the table is
undefined. -/
def print_pins (t : Target) (o : Opts) (tbl : List pin_info) :
    Nat → Nat → Bus → Option (List Out × Bus)
  | _, 0, b => some ([], b)
  | idx, cnt + 1, b =>
    match tbl[idx]? with
    | none => none
    | some p =>
      match pin_stats t o p b with
      | none => none
      | some (st, b1) =>
        let line := if o.opt_view ≠ 0 then Out.value st.avr
                    else Out.row p.name st.avr st.max st.min (st.diff t)
        match print_pins t o tbl (idx + 1) cnt b1 with
        | none => none
        | some (lines, b2) => some (line :: lines, b2)

/-- Source lines 353-406, print_pin_info, for a non-null name: the output and
the bus afterwards. -/
def print_pin_info (t : Target) (o : Opts) (b : Bus) (name : List Char) :
    Option (List Out × Bus) :=
  match resolve t name with
  | none => none
  | some s =>
    let head := if o.opt_view = 0 then [Out.banner] else []
    if s.cnt ≠ 0 then
      match print_pins t o s.tbl s.start s.cnt b with
      | none => none
      | some (lines, b1) => some (head ++ lines ++ [Out.newline], b1)
    else some (head, b)

/-! ## The report as the compiled program runs it

The definitions above leave a lookup outside ADC_ADDR undefined.  The compiled
program does not stop there: for an entry whose adc_idx lies outside the table
(the unused entries, adc_idx = NOT_USED) it carries on with the byte the object
file holds at that place.  The definitions below are the same source lines
with that byte, behind adc_idx, in place of the undefined lookup; for an entry
inside the table they agree with the definitions above. -/

/-- Source lines 257-270, read_pin_value, with the byte behind adc_idx for a
lookup outside ADC_ADDR. -/
def read_pin_value_at (behind : Nat → Nat) (info : pin_info) (b : Bus) : Option (Nat × Bus) :=
  let addr := ADC_ADDR.getD info.adc_idx (behind info.adc_idx)
  let r := i2c_set_addr b addr
  if r.1 = 0 then
    match ADC_CH[info.ch_idx]? with
    | none => none
    | some cmd =>
      let dummy := i2c_read_word r.2 cmd
      let res := i2c_read_word dummy.2 cmd
      some (raw_code res.1, res.2)
  else some (0, r.2)

/-- One converted sample: adc_convert_value(read_pin_value(fd, p)). -/
def sample_at (behind : Nat → Nat) (o : Opts) (p : pin_info) (b : Bus) : Option (Nat × Bus) :=
  match read_pin_value_at behind p b with
  | none => none
  | some (v, b1) => some (adc_convert_value o.opt_unit v, b1)

/-- Source lines 387-392: the loop while (iter--), for a counter that starts at
iter. -/
def iter_loop_at (behind : Nat → Nat) (t : Target) (o : Opts) (p : pin_info) :
    Nat → Acc → Bus → Option (Acc × Bus)
  | 0, a, b => some (a, b)
  | iter + 1, a, b =>
    let avr := (a.avr + a.real) % word_mod t
    let max := if a.real > a.max then a.real else a.max
    let min := if a.real < a.min then a.real else a.min
    match sample_at behind o p b with
    | none => none
    | some (real, b1) => iter_loop_at behind t o p iter ⟨avr, max, min, real⟩ b1

/-- Source lines 383-394: the statistics of one pin. -/
def pin_stats_at (behind : Nat → Nat) (t : Target) (o : Opts) (p : pin_info) (b : Bus) :
    Option (Stats × Bus) :=
  match sample_at behind o p b with
  | none => none
  | some (real, b1) =>
    let iter := if o.opt_iter > 0 then o.opt_iter - 1 else 0
    match iter_loop_at behind t o p iter ⟨real, real, real, real⟩ b1 with
    | none => none
    | some (a, b2) =>
      let avr := if o.opt_iter ≠ 0 then a.avr / o.opt_iter else a.avr
      some (⟨avr, a.max, a.min⟩, b2)

/-- Source lines 382-401: the loop over the pins of the span, the pointer at
index idx of tbl and cnt pins still to go. -/
def print_pins_at (behind : Nat → Nat) (t : Target) (o : Opts) (tbl : List pin_info) :
    Nat → Nat → Bus → Option (List Out × Bus)
  | _, 0, b => some ([], b)
  | idx, cnt + 1, b =>
    match tbl[idx]? with
    | none => none
    | some p =>
      match pin_stats_at behind t o p b with
      | none => none
      | some (st, b1) =>
        let line := if o.opt_view ≠ 0 then Out.value st.avr
                    else Out.row p.name st.avr st.max st.min (st.diff t)
        match print_pins_at behind t o tbl (idx + 1) cnt b1 with
        | none => none
        | some (lines, b2) => some (line :: lines, b2)

/-- Source lines 353-406, print_pin_info, for a non-null name: the output and
the bus afterwards. -/
def print_pin_info_at (behind : Nat → Nat) (t : Target) (o : Opts) (b : Bus)
    (name : List Char) : Option (List Out × Bus) :=
  match resolve t name with
  | none => none
  | some s =>
    let head := if o.opt_view = 0 then [Out.banner] else []
    if s.cnt ≠ 0 then
      match print_pins_at behind t o s.tbl s.start s.cnt b with
      | none => none
      | some (lines, b1) => some (head ++ lines ++ [Out.newline], b1)
    else some (head, b)

/-! ## Definitions that follow the specification, for comparison -/

/-- The header token as the specification words it: everything before the
first '.', upper-cased. -/
def spec_header_token (name : List Char) : List Char :=
  (name.takeWhile (fun c => c != '.')).map Char.toUpper

/-- The nine registered header keys. -/
def HEADER_KEYS : List (List Char) := HEADERS.map (fun kt => kt.1.toList)

/-- Exchange of the two bytes of a 16-bit word, arithmetically. -/
def swap16 (w : Nat) : Nat := (w % 256) * 256 + (w / 256) % 256

/-- The command byte the register comment of lines 46-66 describes for a
single-ended unipolar read: S/D = 1 (bit 7), O/S = the low bit of the channel
(bit 6), S1 and S0 = the upper two bits of the channel (bits 5 and 4), UNI = 1
(bit 3), SLP = 0. -/
def command_bits (ch : Nat) : Nat :=
  0x80 + (ch % 2) * 0x40 + (ch / 4 % 2) * 0x20 + (ch / 2 % 2) * 0x10 + 0x08

/-- The first n converted samples of a pin drawn one after the other, with the
bus left behind. -/
def draw (o : Opts) (p : pin_info) : Nat → Bus → Option (List Nat × Bus)
  | 0, b => some ([], b)
  | n + 1, b =>
    match sample o p b with
    | none => none
    | some (v, b1) =>
      match draw o p n b1 with
      | none => none
      | some (vs, b2) => some (v :: vs, b2)

/-- The statistics the specification states for the converted samples
vs = v1, v2, .. drawn for one pin with the iteration count N: the samples used
are v1 .. v_(N-1); the average is (v1 + their sum) / N, or v1 when N = 0; max
and min are taken over v1 and the samples used. -/
def spec_stats (N : Nat) (vs : List Nat) : Stats :=
  let v1 := vs.headD 0
  let used := vs.take (N - 1)
  ⟨if N = 0 then v1 else (v1 + used.sum) / N, used.foldl max v1, used.foldl min v1⟩

/-- The identifier with its header portion, everything before the first '.',
converted to upper case. -/
def upper_header (s : List Char) : List Char :=
  (s.takeWhile (fun c => c != '.')).map Char.toUpper ++ s.dropWhile (fun c => c != '.')

/-- The iteration count as the specification states it: n clamped to
[0, 100]. -/
def spec_clamp_iter (n : Int) : Nat :=
  if n < 0 then 0 else if n > 100 then 100 else n.toNat

/-- The line of lines 396-399 for the pin p with the statistics st. -/
def report_line (t : Target) (o : Opts) (p : pin_info) (st : Stats) : Out :=
  if o.opt_view ≠ 0 then Out.value st.avr
  else Out.row p.name st.avr st.max st.min (st.diff t)

/-- The statistics of the pins of a list taken strictly one pin after the
other: all samples of a pin are drawn on the bus the pin before it left
behind. -/
def sweep_at (behind : Nat → Nat) (t : Target) (o : Opts) :
    List pin_info → Bus → Option (List Stats × Bus)
  | [], b => some ([], b)
  | p :: ps, b =>
    match pin_stats_at behind t o p b with
    | none => none
    | some (st, b1) =>
      match sweep_at behind t o ps b1 with
      | none => none
      | some (sts, b2) => some (st :: sts, b2)

/-- Whether a transaction is one read_pin_value performs for the pin p: the
selection of the chip address looked up for it or a word read with its channel
command. -/
def pin_op_at (behind : Nat → Nat) (p : pin_info) (op : BusOp) : Bool :=
  op == BusOp.set_addr (ADC_ADDR.getD p.adc_idx (behind p.adc_idx)) ||
  op == BusOp.read_word (ADC_CH.getD p.ch_idx 0)

/-- A bus whose chip-address selection always succeeds and on which both word
reads of the i-th sample return ws[i] (0 behind the list). -/
def script_bus (ws : List Int) : Bus :=
  ⟨fun k => if k % 3 = 0 then 0 else ws.getD (k / 3) 0, []⟩

/-- A bus whose chip-address selection always succeeds and whose every word
read returns w. -/
def const_bus (w : Int) : Bus :=
  ⟨fun k => if k % 3 = 0 then 0 else w, []⟩

end Ltc2309

namespace Ltc2309

/-! ## Pin resolver: registered headers -/

/-- Every pin identifier "key.n" of every header, checked one by one. -/
theorem single_pin_all : ∀ sgn : Bool, ∀ kt ∈ HEADERS, ∀ n < kt.2.length, 1 ≤ n →
    resolve (lp64 sgn) (kt.1 ++ "." ++ Nat.repr n).toList = some ⟨kt.2, n, 1⟩ ∧
    (Span.entries ⟨kt.2, n, 1⟩ = (kt.2[n]?).map (fun e => [e])) ∧
    (kt.2[n]?).map pin_info.pin_num = some n := by
  decide

/-- Every header key alone and with the pin number 0, checked one by one. -/
theorem full_span_all : ∀ sgn : Bool, ∀ kt ∈ HEADERS,
    resolve (lp64 sgn) kt.1.toList = some ⟨kt.2, 1, kt.2.length - 1⟩ ∧
    resolve (lp64 sgn) (kt.1 ++ ".0").toList = some ⟨kt.2, 1, kt.2.length - 1⟩ ∧
    Span.entries ⟨kt.2, 1, kt.2.length - 1⟩ = some (kt.2.drop 1) ∧
    (kt.2.head?).all (fun e => decide (e ∉ kt.2.drop 1)) = true ∧
    kt.2.length - 1 =
      (if kt.1 = "CON1" then 40 else if kt.1 = "P3" then 10 else if kt.1 = "P13" then 7 else 8) := by
  decide

/-- C1: on a target with 8-byte pointers, for every registered header key and
every pin number n from 1 to the last index of its table, resolving "key.n"
(n in decimal) yields a span of exactly one entry, the table entry at index n,
whose pin number is n. -/
theorem resolve_single_pin (sgn : Bool) (key : String) (tbl : List pin_info) (n : Nat)
    (hreg : (key, tbl) ∈ HEADERS) (h1 : 1 ≤ n) (h2 : n < tbl.length) :
    ∃ e, tbl[n]? = some e ∧ e.pin_num = n ∧
      resolve (lp64 sgn) (key ++ "." ++ Nat.repr n).toList = some ⟨tbl, n, 1⟩ ∧
      Span.entries ⟨tbl, n, 1⟩ = some [e] := by
  obtain ⟨hr, he, hp⟩ := single_pin_all sgn (key, tbl) hreg n h2 h1
  have hn : tbl[n]? = some (tbl[n]) := List.getElem?_eq_getElem h2
  refine ⟨tbl[n], hn, ?_, hr, ?_⟩
  · simpa [hn] using hp
  · simpa [hn] using he

/-- The identifier "CON1.5" resolves to the one entry CON1.5 on chip 1,
channel 1. -/
theorem resolve_single_pin_witness :
    ("CON1", HEADER_CON1) ∈ HEADERS ∧ 1 ≤ 5 ∧ 5 < HEADER_CON1.length ∧
    (∃ e, HEADER_CON1[5]? = some e ∧ e.pin_num = 5 ∧
      resolve (lp64 true) ("CON1" ++ "." ++ Nat.repr 5).toList = some ⟨HEADER_CON1, 5, 1⟩ ∧
      Span.entries ⟨HEADER_CON1, 5, 1⟩ = some [e]) ∧
    HEADER_CON1[5]? = some ⟨"CON1.5", 5, CHIP_ADC1, 1⟩ :=
  ⟨by decide, by decide, by decide,
   resolve_single_pin true "CON1" HEADER_CON1 5 (by decide) (by decide) (by decide),
   by decide⟩

/-- C2: on a target with 8-byte pointers, for every registered header key,
resolving the key alone and resolving "key.0" both yield the span that starts
at index 1 and counts size - 1 entries (40, 10, 7 or 8), that is the table
without its entry at index 0, in table order. -/
theorem resolve_full_span (sgn : Bool) (key : String) (tbl : List pin_info)
    (hreg : (key, tbl) ∈ HEADERS) :
    resolve (lp64 sgn) key.toList = some ⟨tbl, 1, tbl.length - 1⟩ ∧
    resolve (lp64 sgn) (key ++ ".0").toList = some ⟨tbl, 1, tbl.length - 1⟩ ∧
    Span.entries ⟨tbl, 1, tbl.length - 1⟩ = some (tbl.drop 1) ∧
    (∀ e, tbl.head? = some e → e ∉ tbl.drop 1) ∧
    tbl.length - 1 =
      (if key = "CON1" then 40 else if key = "P3" then 10 else if key = "P13" then 7 else 8) := by
  obtain ⟨ha, hb, hc, hd, he⟩ := full_span_all sgn (key, tbl) hreg
  refine ⟨ha, hb, hc, ?_, he⟩
  intro e hhead
  simpa [hhead] using hd

/-- Both "P13" and "P13.0" resolve to the seven entries P13.1 .. P13.7. -/
theorem resolve_full_span_witness :
    ("P13", HEADER_P13) ∈ HEADERS ∧
    resolve (lp64 false) "P13".toList = some ⟨HEADER_P13, 1, HEADER_P13.length - 1⟩ ∧
    resolve (lp64 false) ("P13" ++ ".0").toList = some ⟨HEADER_P13, 1, HEADER_P13.length - 1⟩ ∧
    Span.entries ⟨HEADER_P13, 1, HEADER_P13.length - 1⟩ = some (HEADER_P13.drop 1) ∧
    (∀ e, HEADER_P13.head? = some e → e ∉ HEADER_P13.drop 1) ∧
    HEADER_P13.length - 1 =
      (if "P13" = "CON1" then 40 else if "P13" = "P3" then 10
        else if "P13" = "P13" then 7 else 8) :=
  ⟨by decide, resolve_full_span false "P13" HEADER_P13 (by decide)⟩

/-- C3: the identifier "CON1.257" names a pin number beyond the 41 entries of
CON1, yet it resolves to the single pin CON1.1 and not to the full span of
"CON1": atoi returns 257, the char pin_no keeps 257 mod 256 = 1, and the bound
check of header_info sees 1.  "CON1.999" (999 mod 256 = 231) does give the
full span. -/
theorem resolve_pin_257 :
    HEADER_CON1.length ≤ 257 ∧
    (∀ sgn : Bool,
      resolve (lp64 sgn) "CON1.257".toList = some ⟨HEADER_CON1, 1, 1⟩ ∧
      resolve (lp64 sgn) "CON1".toList = some ⟨HEADER_CON1, 1, 40⟩ ∧
      resolve (lp64 sgn) "CON1.257".toList ≠ resolve (lp64 sgn) "CON1".toList ∧
      resolve (lp64 sgn) "CON1.999".toList = some ⟨HEADER_CON1, 1, 40⟩) := by
  decide

/-- C4, as stated, fails: the header token of ".CON1" (everything before the
first '.') is empty and no registered key, yet strtok skips the leading '.'
and the identifier resolves to the 40 pins of CON1. -/
theorem unknown_header_leading_dot :
    spec_header_token ".CON1".toList = [] ∧
    spec_header_token ".CON1".toList ∉ HEADER_KEYS ∧
    resolve (lp64 true) ".CON1".toList = some ⟨HEADER_CON1, 1, 40⟩ ∧
    resolve (lp64 false) ".CON1".toList = some ⟨HEADER_CON1, 1, 40⟩ := by
  decide

/-! ## Pin resolver: unknown headers -/

/-- With a count beyond the length of the key, strncmp is string equality. -/
theorem strncmp_eq_zero_iff (key : List Char) : ∀ (h : List Char) (n : Nat),
    key.length < n → (strncmp key h n = 0 ↔ key = h) := by
  induction key with
  | nil =>
    intro h n hn
    cases n with
    | zero => simp at hn
    | succ m =>
      cases h with
      | nil => simp [strncmp]
      | cons b s2 => simp [strncmp]
  | cons a s1 ih =>
    intro h n hn
    cases n with
    | zero => simp at hn
    | succ m =>
      cases h with
      | nil => simp [strncmp]
      | cons b s2 =>
        have hm : s1.length < m := by simpa using hn
        by_cases hab : a = b
        · subst hab
          simp [strncmp, ih s2 m hm]
        · have hval : strncmp (a :: s1) (b :: s2) (m + 1) =
              if a.toNat < b.toNat then -1 else 1 := by
            simp [strncmp, hab]
          rw [hval]
          constructor
          · intro h0
            split at h0 <;> simp at h0
          · intro h0
            exact absurd (List.cons.inj h0).1 hab

theorem header_info_unknown (sgn : Bool) (h : List Char) (pin_no : Int)
    (hh : h ∉ HEADER_KEYS) : header_info (lp64 sgn) h pin_no = ⟨HEADER_CON1, 0, 0⟩ := by
  have hlen : ∀ key ∈ HEADER_KEYS, key.length < 8 := by decide
  have hk : ∀ key ∈ HEADER_KEYS, ¬ (strncmp key h 8 = 0) := by
    intro key hkey h0
    rw [strncmp_eq_zero_iff key h 8 (hlen key hkey)] at h0
    exact hh (h0 ▸ hkey)
  unfold header_info
  simp only [lp64]
  rw [if_neg (hk _ (by decide)), if_neg (hk _ (by decide)), if_neg (hk _ (by decide)),
    if_neg (hk _ (by decide)), if_neg (hk _ (by decide)), if_neg (hk _ (by decide)),
    if_neg (hk _ (by decide)), if_neg (hk _ (by decide)), if_neg (hk _ (by decide))]

theorem toupper_str_short (s : List Char) (hs : s.length ≤ 12) :
    toupper_str s = s.map Char.toUpper := by
  unfold toupper_str
  rw [List.take_of_length_le hs, List.drop_of_length_le hs]
  simp [toupper]

theorem strtok_dot_cons (c : Char) (l : List Char) (hc : c ≠ '.') :
    (strtok (c :: l) ['.']).1 = some ((c :: l).takeWhile (fun x => x != '.')) := by
  have hp : (fun x : Char => !(['.'].contains x)) = (fun x => x != '.') := by
    funext x
    by_cases hx : x = '.' <;> simp [hx]
  have hd : (c :: l).dropWhile (fun x => ['.'].contains x) = c :: l := by
    simp [List.dropWhile, hc]
  simp only [strtok, hd, hp]
  simp

/-- The header name print_pin_info hands to header_info when the identifier
does not begin with '.'. -/
theorem parse_name_token (t : Target) (c : Char) (rest : List Char) (hc : c ≠ '.')
    (hp : t.ptr_size = 8) :
    (parse_name t (c :: rest)).1 = some ((spec_header_token (c :: rest)).take 8) := by
  have htake : (c :: rest).take 8 = c :: rest.take 7 := rfl
  have hlen : (((c :: rest).takeWhile (fun x => x != '.')).take 8).length ≤ 12 := by
    rw [List.length_take]
    omega
  simp only [parse_name, hp, htake, strtok_dot_cons c _ hc, Option.map_some']
  rw [← htake, ← List.take_takeWhile, toupper_str_short _ hlen, List.map_take]
  rfl

/-- An identifier that does not begin with '.' and whose header token is no
registered key resolves to the empty span. -/
theorem resolve_unknown (sgn : Bool) (name : List Char) (hne : name ≠ [])
    (hdot : name.head? ≠ some '.') (hkey : spec_header_token name ∉ HEADER_KEYS) :
    resolve (lp64 sgn) name = some ⟨HEADER_CON1, 0, 0⟩ := by
  cases name with
  | nil => exact absurd rfl hne
  | cons c rest =>
    have hc : c ≠ '.' := by
      intro h
      exact hdot (by simp [h])
    have htok := parse_name_token (lp64 sgn) c rest hc rfl
    have hnk : (spec_header_token (c :: rest)).take 8 ∉ HEADER_KEYS := by
      intro hmem
      have hlen : ∀ key ∈ HEADER_KEYS, key.length < 8 := by decide
      have h8 := hlen _ hmem
      rw [List.length_take] at h8
      have hle : (spec_header_token (c :: rest)).length ≤ 8 := by omega
      rw [List.take_of_length_le hle] at hmem
      exact hkey hmem
    unfold resolve
    rcases hpn : parse_name (lp64 sgn) (c :: rest) with ⟨h, pin_no⟩
    rw [hpn] at htok
    simp only at htok
    subst htok
    simp only [header_info_unknown sgn _ pin_no hnk]

/-- C4, amended: on a target with 8-byte pointers, for every identifier that is
not empty and does not begin with '.', and whose header token (everything
before the first '.', upper-cased) is none of the nine registered keys, the
resolver returns the span of zero pins, and print_pin_info performs no bus
transaction and writes no pin row (only the heading, outside view mode). -/
theorem print_pin_info_unknown_header (sgn : Bool) (o : Opts) (b : Bus) (name : List Char)
    (hne : name ≠ []) (hdot : name.head? ≠ some '.')
    (hkey : spec_header_token name ∉ HEADER_KEYS) :
    resolve (lp64 sgn) name = some ⟨HEADER_CON1, 0, 0⟩ ∧
    print_pin_info (lp64 sgn) o b name
      = some (if o.opt_view = 0 then [Out.banner] else [], b) := by
  have hr := resolve_unknown sgn name hne hdot hkey
  refine ⟨hr, ?_⟩
  unfold print_pin_info
  simp [hr]

/-- The identifier "BOGUS" resolves to zero pins and prints the heading only. -/
theorem print_pin_info_unknown_header_witness :
    ("BOGUS".toList ≠ [] ∧ "BOGUS".toList.head? ≠ some '.' ∧
      spec_header_token "BOGUS".toList ∉ HEADER_KEYS) ∧
    (resolve (lp64 true) "BOGUS".toList = some ⟨HEADER_CON1, 0, 0⟩ ∧
      print_pin_info (lp64 true) ⟨0, 3, 0⟩ (const_bus 0x34F2) "BOGUS".toList
        = some (if (⟨0, 3, 0⟩ : Opts).opt_view = 0 then [Out.banner] else [],
            const_bus 0x34F2)) :=
  ⟨⟨by decide, by decide, by decide⟩,
   print_pin_info_unknown_header true ⟨0, 3, 0⟩ (const_bus 0x34F2) "BOGUS".toList
     (by decide) (by decide) (by decide)⟩

/-! ## Channel-command table -/

/-- C5, as stated, fails: the table holds 0x98 for channel 2 and 0xA8 for
channel 4, not 0xA8 and 0x98. -/
theorem adc_ch_channel_2_and_4 :
    ADC_CH[2]? = some 0x98 ∧ ADC_CH[2]? ≠ some 0xA8 ∧
    ADC_CH[4]? = some 0xA8 ∧ ADC_CH[4]? ≠ some 0x98 := by
  decide

/-- C5, amended: the table has eight entries, 0x88, 0xC8, 0x98, 0xD8, 0xA8,
0xE8, 0xB8, 0xF8 for the channels 0 to 7, and the entry of channel c is the
byte the register comment describes: S/D = 1, O/S = c mod 2, S1 S0 = the upper
two bits of c, UNI = 1. -/
theorem adc_ch_table :
    ADC_CH = (List.range 8).map command_bits ∧
    (List.range 8).map command_bits = [0x88, 0xC8, 0x98, 0xD8, 0xA8, 0xE8, 0xB8, 0xF8] := by
  decide

/-! ## Bit extraction -/

theorem and_0xFF (x : Nat) : x &&& 0xFF = x % 256 := Nat.and_pow_two_sub_one_eq_mod x 8

theorem and_0xFFF (x : Nat) : x &&& 0xFFF = x % 4096 := Nat.and_pow_two_sub_one_eq_mod x 12

theorem shl8_and_0xFF00 (x : Nat) : (x <<< 8) &&& 0xFF00 = (x % 256) * 256 := by
  have h1 : (0xFF00 : Nat) = (2 ^ 8 - 1) <<< 8 := by decide
  have h2 : (x % 256) * 256 = (x % 2 ^ 8) <<< 8 := by
    rw [Nat.shiftLeft_eq]; norm_num
  rw [h1, h2]
  apply Nat.eq_of_testBit_eq
  intro i
  simp only [Nat.testBit_and, Nat.testBit_shiftLeft, Nat.testBit_two_pow_sub_one,
    Nat.testBit_mod_two_pow]
  by_cases h : 8 ≤ i <;> by_cases h3 : i - 8 < 8 <;> simp [h, h3]

theorem or_low_byte (a b : Nat) (hb : b < 256) : b ||| (a * 256) = a * 256 + b := by
  have h := Nat.mul_add_lt_is_or (i := 8) (b := b) (by simpa using hb) a
  rw [Nat.lor_comm, Nat.mul_comm a 256]
  simpa using h.symm

/-- The macro exchanges the low two bytes of its argument. -/
theorem SWAP_WORD_eq_swap16 (x : Nat) : SWAP_WORD x = swap16 x := by
  unfold SWAP_WORD swap16
  rw [shl8_and_0xFF00, and_0xFF, Nat.shiftRight_eq_div_pow,
    or_low_byte _ _ (Nat.mod_lt _ (by norm_num))]

theorem swap16_shift_mask (w : Nat) (hw : w ≤ 0xFFFF) :
    (swap16 w >>> 4) &&& 0xFFF = ((w &&& 0xFF) <<< 4) ||| (w >>> 12) := by
  have h4 : w >>> 12 < 2 ^ 4 := by
    rw [Nat.shiftRight_eq_div_pow]; norm_num; omega
  have hhi : w / 256 < 256 := by omega
  have h5 : w / 4096 = w / 256 / 16 := by rw [Nat.div_div_eq_div_mul]
  have h6 : (w % 256 * 256 + w / 256) / 16 = w % 256 * 16 + w / 256 / 16 := by
    have h7 : w % 256 * 256 = 16 * (w % 256 * 16) := by ring
    rw [h7, Nat.mul_add_div (by norm_num)]
  have h8 : w % 256 * 16 + w / 256 / 16 < 4096 := by omega
  rw [Nat.shiftLeft_eq, Nat.mul_comm, ← Nat.mul_add_lt_is_or h4, and_0xFF, and_0xFFF]
  unfold swap16
  simp only [Nat.shiftRight_eq_div_pow]
  rw [Nat.mod_eq_of_lt hhi]
  norm_num
  rw [h6, Nat.mod_eq_of_lt h8, h5]
  ring

theorem raw_code_le (v : Int) : raw_code v ≤ 4095 := by
  unfold raw_code
  exact Nat.and_le_right

theorem raw_code_neg (v : Int) (hv : v < 0) : raw_code v = 0 := by
  unfold raw_code
  simp only [hv, if_true]
  decide

/-- What read_pin_value does for a pin inside both tables: the chip address is
selected; on success the command byte is read twice and the second word is
decoded, otherwise 0 is returned at once. -/
theorem read_pin_value_valid (info : pin_info) (b : Bus)
    (hadc : info.adc_idx < ADC_ADDR.length) (hch : info.ch_idx < ADC_CH.length) :
    read_pin_value info b =
      if b.resp b.log.length = 0 then
        some (raw_code (b.resp (b.log.length + 2)),
          ⟨b.resp, b.log ++ [BusOp.set_addr ADC_ADDR[info.adc_idx],
            BusOp.read_word ADC_CH[info.ch_idx], BusOp.read_word ADC_CH[info.ch_idx]]⟩)
      else some (0, ⟨b.resp, b.log ++ [BusOp.set_addr ADC_ADDR[info.adc_idx]]⟩) := by
  unfold read_pin_value
  rw [List.getElem?_eq_getElem hadc, List.getElem?_eq_getElem hch]
  simp [i2c_set_addr, i2c_read_word]

/-- C6: when the chip is selected and the result transaction returns a 16-bit
word w, read_pin_value returns (swap16(w) >> 4) & 0xFFF, where swap16
exchanges the two bytes of w; this equals ((w & 0xFF) << 4) | (w >> 12) and
lies in [0, 4095]. -/
theorem read_pin_value_bits (info : pin_info) (b : Bus) (w : Nat)
    (hadc : info.adc_idx < 6) (hch : info.ch_idx < 8)
    (hsel : b.resp b.log.length = 0)
    (hres : b.resp (b.log.length + 2) = (w : Int)) (hw : w ≤ 0xFFFF) :
    (∃ b1, read_pin_value info b = some ((swap16 w >>> 4) &&& 0xFFF, b1)) ∧
    (swap16 w >>> 4) &&& 0xFFF = ((w &&& 0xFF) <<< 4) ||| (w >>> 12) ∧
    (swap16 w >>> 4) &&& 0xFFF ≤ 4095 := by
  refine ⟨?_, swap16_shift_mask w hw, Nat.and_le_right⟩
  have hraw : raw_code (w : Int) = (swap16 w >>> 4) &&& 0xFFF := by
    unfold raw_code
    have hnn : ¬ ((w : Int) < 0) := by omega
    simp only [hnn, if_false, Int.toNat_ofNat, SWAP_WORD_eq_swap16]
  rw [read_pin_value_valid info b hadc hch, if_pos hsel, hres, hraw]
  exact ⟨_, rfl⟩

/-- The word 0x34F2 read for CON1.5 decodes to 0xF23. -/
theorem read_pin_value_bits_witness :
    (1 < 6 ∧ 1 < 8 ∧ (const_bus 0x34F2).resp (const_bus 0x34F2).log.length = 0 ∧
      (const_bus 0x34F2).resp ((const_bus 0x34F2).log.length + 2) = ((0x34F2 : Nat) : Int) ∧
      0x34F2 ≤ 0xFFFF) ∧
    ((∃ b1, read_pin_value ⟨"CON1.5", 5, 1, 1⟩ (const_bus 0x34F2)
        = some ((swap16 0x34F2 >>> 4) &&& 0xFFF, b1)) ∧
      (swap16 0x34F2 >>> 4) &&& 0xFFF = ((0x34F2 &&& 0xFF) <<< 4) ||| (0x34F2 >>> 12) ∧
      (swap16 0x34F2 >>> 4) &&& 0xFFF ≤ 4095) ∧
    (swap16 0x34F2 >>> 4) &&& 0xFFF = 0xF23 :=
  ⟨⟨by decide, by decide, by decide, by decide, by decide⟩,
   read_pin_value_bits ⟨"CON1.5", 5, 1, 1⟩ (const_bus 0x34F2) 0x34F2
     (by decide) (by decide) (by decide) (by decide) (by decide),
   by decide⟩

/-! ## Value converter -/

/-- C7: the weight is 5000000 / 4096 = 1220, and for every raw code r in
[0, 4095] adc_convert_value returns r * 1220 in microvolt mode (opt_unit set)
and (r * 1220) / 1000 in millivolt mode (opt_unit 0). -/
theorem adc_convert_value_spec (r : Nat) (hr : r ≤ 4095) :
    ADC_WEIGHT_uV = 1220 ∧
    (∀ opt_unit, opt_unit ≠ 0 → adc_convert_value opt_unit r = r * 1220) ∧
    adc_convert_value 0 r = (r * 1220) / 1000 := by
  have hw : ADC_WEIGHT_uV = 1220 := by decide
  have hm : r % 65536 = r := Nat.mod_eq_of_lt (by omega)
  refine ⟨hw, ?_, ?_⟩
  · intro u hu
    simp [adc_convert_value, hu, hm, hw]
  · simp [adc_convert_value, hm, hw]

/-- The raw code 4095 converts to 4995900 uV and to 4995 mV. -/
theorem adc_convert_value_spec_witness :
    4095 ≤ 4095 ∧
    (ADC_WEIGHT_uV = 1220 ∧
      (∀ opt_unit, opt_unit ≠ 0 → adc_convert_value opt_unit 4095 = 4095 * 1220) ∧
      adc_convert_value 0 4095 = (4095 * 1220) / 1000) ∧
    adc_convert_value 1 4095 = 4995900 ∧ adc_convert_value 0 4095 = 4995 :=
  ⟨by decide, adc_convert_value_spec 4095 (by decide), by decide, by decide⟩

/-! ## Aggregator and transport failures -/

theorem read_pin_value_le (info : pin_info) (b b1 : Bus) (v : Nat)
    (h : read_pin_value info b = some (v, b1)) : v ≤ 4095 := by
  unfold read_pin_value at h
  cases ha : ADC_ADDR[info.adc_idx]? with
  | none => simp [ha] at h
  | some addr =>
    simp only [ha] at h
    by_cases hr : (i2c_set_addr b addr).1 = 0
    · rw [if_pos hr] at h
      cases hc : ADC_CH[info.ch_idx]? with
      | none => simp [hc] at h
      | some cmd =>
        simp only [hc, Option.some.injEq, Prod.mk.injEq] at h
        rw [← h.1]
        exact raw_code_le _
    · rw [if_neg hr] at h
      simp only [Option.some.injEq, Prod.mk.injEq] at h
      omega

theorem adc_convert_value_le (u v : Nat) (hv : v ≤ 4095) :
    adc_convert_value u v ≤ 4995900 := by
  have hw : ADC_WEIGHT_uV = 1220 := by decide
  have hm : v % 65536 = v := Nat.mod_eq_of_lt (by omega)
  unfold adc_convert_value
  simp only [hm, hw]
  split
  · omega
  · omega

theorem sample_le (o : Opts) (p : pin_info) (b b1 : Bus) (v : Nat)
    (h : sample o p b = some (v, b1)) : v ≤ 4995900 := by
  unfold sample at h
  split at h
  · simp at h
  · rename_i r b2 hr
    simp only [Option.some.injEq, Prod.mk.injEq] at h
    rw [← h.1]
    exact adc_convert_value_le _ _ (read_pin_value_le p b b2 r hr)

theorem draw_succ (o : Opts) (p : pin_info) (n : Nat) (b b1 : Bus) (vs : List Nat)
    (h : draw o p (n + 1) b = some (vs, b1)) :
    ∃ v b2 rest, sample o p b = some (v, b2) ∧ draw o p n b2 = some (rest, b1) ∧
      vs = v :: rest := by
  unfold draw at h
  split at h
  · simp at h
  · rename_i v b2 hs
    split at h
    · simp at h
    · rename_i rest b3 hd
      simp only [Option.some.injEq, Prod.mk.injEq] at h
      exact ⟨v, b2, rest, hs, by rw [hd, h.2], h.1.symm⟩

theorem draw_spec (o : Opts) (p : pin_info) : ∀ (n : Nat) (b b1 : Bus) (vs : List Nat),
    draw o p n b = some (vs, b1) → vs.length = n ∧ ∀ v ∈ vs, v ≤ 4995900 := by
  intro n
  induction n with
  | zero =>
    intro b b1 vs h
    simp only [draw, Option.some.injEq, Prod.mk.injEq] at h
    simp [← h.1]
  | succ k ih =>
    intro b b1 vs h
    obtain ⟨v, b2, rest, hs, hd, rfl⟩ := draw_succ o p k b b1 vs h
    obtain ⟨hl, hb⟩ := ih b2 b1 rest hd
    refine ⟨by simp [hl], ?_⟩
    intro x hx
    rcases List.mem_cons.mp hx with rfl | hx
    · exact sample_le o p b b2 _ hs
    · exact hb x hx

theorem iter_loop_spec (t : Target) (o : Opts) (p : pin_info) :
    ∀ (k : Nat) (a : Acc) (b b1 : Bus) (vs : List Nat),
      draw o p k b = some (vs, b1) → a.real ≤ 4995900 →
      a.avr + k * 4995900 < word_mod t →
      ∃ r, iter_loop t o p k a b =
        some (⟨a.avr + ((a.real :: vs).take k).sum, ((a.real :: vs).take k).foldl max a.max,
               ((a.real :: vs).take k).foldl min a.min, r⟩, b1) := by
  intro k
  induction k with
  | zero =>
    intro a b b1 vs h _ _
    simp only [draw, Option.some.injEq, Prod.mk.injEq] at h
    exact ⟨a.real, by simp [iter_loop, ← h.2]⟩
  | succ k ih =>
    intro a b b1 vs h hreal hbound
    obtain ⟨v, b2, rest, hs, hd, rfl⟩ := draw_succ o p k b b1 vs h
    have hv := sample_le o p b b2 v hs
    have hmod : (a.avr + a.real) % word_mod t = a.avr + a.real :=
      Nat.mod_eq_of_lt (by omega)
    have hmax : (if a.real > a.max then a.real else a.max) = max a.max a.real := by
      rw [Nat.max_def]; split <;> split <;> omega
    have hmin : (if a.real < a.min then a.real else a.min) = min a.min a.real := by
      rw [Nat.min_def]; split <;> split <;> omega
    obtain ⟨r, hr⟩ := ih ⟨a.avr + a.real, max a.max a.real, min a.min a.real, v⟩ b2 b1 rest hd hv
      (by simp only; omega)
    refine ⟨r, ?_⟩
    simp only [iter_loop, hs, hmod, hmax, hmin, hr, List.take_succ_cons, List.sum_cons,
      List.foldl_cons, Nat.add_assoc]

theorem foldl_max_bounds (l : List Nat) : ∀ (m M : Nat), m ≤ M → (∀ v ∈ l, v ≤ M) →
    m ≤ l.foldl max m ∧ l.foldl max m ≤ M := by
  induction l with
  | nil => intro m M hm _; exact ⟨Nat.le_refl _, hm⟩
  | cons x xs ih =>
    intro m M hm hall
    have hx : x ≤ M := hall x (List.mem_cons_self _ _)
    obtain ⟨h1, h2⟩ := ih (max m x) M (Nat.max_le.mpr ⟨hm, hx⟩)
      (fun v hv => hall v (List.mem_cons_of_mem _ hv))
    exact ⟨Nat.le_trans (Nat.le_max_left m x) h1, h2⟩

theorem foldl_min_le (l : List Nat) : ∀ (m : Nat), l.foldl min m ≤ m := by
  induction l with
  | nil => intro m; exact Nat.le_refl _
  | cons x xs ih =>
    intro m
    exact Nat.le_trans (ih (min m x)) (Nat.min_le_left m x)

theorem word_mod_lp64 (sgn : Bool) : word_mod (lp64 sgn) = 18446744073709551616 := by
  simp [word_mod, lp64]

/-- The per-pin loop computes the statistics of the specification from the
samples it draws. -/
theorem pin_stats_eq_spec (sgn : Bool) (o : Opts) (p : pin_info) (b b1 : Bus)
    (vs : List Nat) (hN : o.opt_iter ≤ 100)
    (hdraw : draw o p (max o.opt_iter 1) b = some (vs, b1)) :
    pin_stats (lp64 sgn) o p b = some (spec_stats o.opt_iter vs, b1) := by
  have hmax : max o.opt_iter 1 = (o.opt_iter - 1) + 1 := by omega
  rw [hmax] at hdraw
  obtain ⟨v, b2, rest, hs, hd, rfl⟩ := draw_succ o p _ b b1 vs hdraw
  have hv := sample_le o p b b2 v hs
  have hiter : (if o.opt_iter > 0 then o.opt_iter - 1 else 0) = o.opt_iter - 1 := by
    split <;> omega
  obtain ⟨r, hr⟩ := iter_loop_spec (lp64 sgn) o p (o.opt_iter - 1) ⟨v, v, v, v⟩ b2 b1 rest hd hv
    (by rw [word_mod_lp64]; simp only; omega)
  unfold pin_stats
  simp only [hs, hiter, hr, spec_stats, List.headD_cons]
  by_cases h0 : o.opt_iter = 0
  · simp [h0]
  · simp [h0]

theorem spec_stats_bounds (N : Nat) (vs : List Nat) (hb : ∀ v ∈ vs, v ≤ 4995900) :
    (spec_stats N vs).min ≤ (spec_stats N vs).max ∧ (spec_stats N vs).max ≤ 4995900 := by
  have hhead : vs.headD 0 ≤ 4995900 := by
    cases vs with
    | nil => simp
    | cons x xs => exact hb x (List.mem_cons_self _ _)
  have hused : ∀ v ∈ vs.take (N - 1), v ≤ 4995900 :=
    fun v hv => hb v (List.mem_of_mem_take hv)
  obtain ⟨h1, h2⟩ := foldl_max_bounds (vs.take (N - 1)) (vs.headD 0) 4995900 hhead hused
  exact ⟨Nat.le_trans (foldl_min_le _ _) h1, h2⟩

theorem diff_eq_sub (sgn : Bool) (s : Stats) (h1 : s.min ≤ s.max) (h2 : s.max ≤ 4995900) :
    s.diff (lp64 sgn) = s.max - s.min := by
  unfold Stats.diff
  rw [word_mod_lp64]
  omega

/-- C8: for every iteration count N up to 100 and the converted samples
v1, v2, .. that max N 1 successive draws for the pin yield, the aggregator
draws exactly these samples (it leaves the bus as the draws do) and reports
average = (v1 + (v1 + .. + v_(N-1))) / N (v1 when N is 0), max and min of
v1 .. v_(N-1) (v1 when N is 0 or 1), spread = max - min. -/
theorem aggregator_spec (sgn : Bool) (o : Opts) (p : pin_info) (b b1 : Bus) (vs : List Nat)
    (hN : o.opt_iter ≤ 100) (hdraw : draw o p (max o.opt_iter 1) b = some (vs, b1)) :
    pin_stats (lp64 sgn) o p b = some (spec_stats o.opt_iter vs, b1) ∧
    (spec_stats o.opt_iter vs).diff (lp64 sgn)
      = (spec_stats o.opt_iter vs).max - (spec_stats o.opt_iter vs).min ∧
    vs.length = max o.opt_iter 1 ∧
    (o.opt_iter ≤ 1 → spec_stats o.opt_iter vs = ⟨vs.headD 0, vs.headD 0, vs.headD 0⟩) := by
  obtain ⟨h1, h2⟩ := spec_stats_bounds o.opt_iter vs (draw_spec o p _ b b1 vs hdraw).2
  refine ⟨pin_stats_eq_spec sgn o p b b1 vs hN hdraw, diff_eq_sub sgn _ h1 h2,
    (draw_spec o p _ b b1 vs hdraw).1, ?_⟩
  intro hle
  have hcases : o.opt_iter = 0 ∨ o.opt_iter = 1 := by omega
  rcases hcases with h | h <;> simp [spec_stats, h]

/-- Three samples of 4727 mV with N = 3 give average = max = min = 4727 and
spread 0. -/
theorem aggregator_spec_witness :
    (3 ≤ 100 ∧
      draw ⟨0, 3, 0⟩ ⟨"CON1.5", 5, 1, 1⟩ (max 3 1) (const_bus 0x34F2) = some ([4727, 4727, 4727],
        ⟨(const_bus 0x34F2).resp,
         [BusOp.set_addr 9, BusOp.read_word 0xC8, BusOp.read_word 0xC8,
          BusOp.set_addr 9, BusOp.read_word 0xC8, BusOp.read_word 0xC8,
          BusOp.set_addr 9, BusOp.read_word 0xC8, BusOp.read_word 0xC8]⟩)) ∧
    spec_stats 3 [4727, 4727, 4727] = ⟨4727, 4727, 4727⟩ ∧
    Stats.diff (lp64 true) ⟨4727, 4727, 4727⟩ = 0 ∧
    pin_stats (lp64 true) ⟨0, 3, 0⟩ ⟨"CON1.5", 5, 1, 1⟩ (const_bus 0x34F2) =
      some (spec_stats 3 [4727, 4727, 4727],
        ⟨(const_bus 0x34F2).resp,
         [BusOp.set_addr 9, BusOp.read_word 0xC8, BusOp.read_word 0xC8,
          BusOp.set_addr 9, BusOp.read_word 0xC8, BusOp.read_word 0xC8,
          BusOp.set_addr 9, BusOp.read_word 0xC8, BusOp.read_word 0xC8]⟩) :=
  ⟨⟨by decide, rfl⟩, by decide, by decide,
   (aggregator_spec true ⟨0, 3, 0⟩ ⟨"CON1.5", 5, 1, 1⟩ (const_bus 0x34F2) _ _
     (by decide) rfl).1⟩

theorem spec_stats_last (N : Nat) (vs : List Nat) (x y : Nat) (h2 : 2 ≤ N)
    (hlen : vs.length = N - 1) : spec_stats N (vs ++ [x]) = spec_stats N (vs ++ [y]) := by
  cases vs with
  | nil => simp at hlen; omega
  | cons v rest =>
    have htx : ((v :: rest) ++ [x]).take (N - 1) = v :: rest := by
      rw [← hlen]; exact List.take_left' rfl
    have hty : ((v :: rest) ++ [y]).take (N - 1) = v :: rest := by
      rw [← hlen]; exact List.take_left' rfl
    unfold spec_stats
    simp only [htx, hty]
    rfl

/-- C9: for every iteration count N in [2, 100], two runs for one pin whose
first N - 1 samples agree and whose N-th samples are x and y report the same
average, max and min (and so the same spread max - min). -/
theorem aggregator_last_sample (sgn : Bool) (o : Opts) (p : pin_info) (b b1 c c1 : Bus)
    (vs : List Nat) (x y : Nat) (h2 : 2 ≤ o.opt_iter) (h100 : o.opt_iter ≤ 100)
    (hb : draw o p o.opt_iter b = some (vs ++ [x], b1))
    (hc : draw o p o.opt_iter c = some (vs ++ [y], c1)) :
    ∃ st, pin_stats (lp64 sgn) o p b = some (st, b1) ∧
      pin_stats (lp64 sgn) o p c = some (st, c1) := by
  have hmax : max o.opt_iter 1 = o.opt_iter := by omega
  have hlen : vs.length = o.opt_iter - 1 := by
    have h := (draw_spec o p _ b b1 _ hb).1
    simp at h
    omega
  refine ⟨spec_stats o.opt_iter (vs ++ [x]), ?_, ?_⟩
  · exact pin_stats_eq_spec sgn o p b b1 _ h100 (by rw [hmax]; exact hb)
  · rw [spec_stats_last o.opt_iter vs x y h2 hlen]
    exact pin_stats_eq_spec sgn o p c c1 _ h100 (by rw [hmax]; exact hc)

/-- With N = 3, a last sample of 1 mV instead of 4727 mV changes nothing. -/
theorem aggregator_last_sample_witness :
    (2 ≤ 3 ∧ 3 ≤ 100 ∧
      draw ⟨0, 3, 0⟩ ⟨"CON1.5", 5, 1, 1⟩ 3 (script_bus [0x34F2, 0x34F2, 0x34F2])
        = some ([4727, 4727] ++ [4727],
          ⟨(script_bus [0x34F2, 0x34F2, 0x34F2]).resp,
           [BusOp.set_addr 9, BusOp.read_word 0xC8, BusOp.read_word 0xC8,
            BusOp.set_addr 9, BusOp.read_word 0xC8, BusOp.read_word 0xC8,
            BusOp.set_addr 9, BusOp.read_word 0xC8, BusOp.read_word 0xC8]⟩) ∧
      draw ⟨0, 3, 0⟩ ⟨"CON1.5", 5, 1, 1⟩ 3 (script_bus [0x34F2, 0x34F2, 0x1000])
        = some ([4727, 4727] ++ [1],
          ⟨(script_bus [0x34F2, 0x34F2, 0x1000]).resp,
           [BusOp.set_addr 9, BusOp.read_word 0xC8, BusOp.read_word 0xC8,
            BusOp.set_addr 9, BusOp.read_word 0xC8, BusOp.read_word 0xC8,
            BusOp.set_addr 9, BusOp.read_word 0xC8, BusOp.read_word 0xC8]⟩)) ∧
    (∃ st, pin_stats (lp64 false) ⟨0, 3, 0⟩ ⟨"CON1.5", 5, 1, 1⟩
          (script_bus [0x34F2, 0x34F2, 0x34F2])
        = some (st, ⟨(script_bus [0x34F2, 0x34F2, 0x34F2]).resp,
           [BusOp.set_addr 9, BusOp.read_word 0xC8, BusOp.read_word 0xC8,
            BusOp.set_addr 9, BusOp.read_word 0xC8, BusOp.read_word 0xC8,
            BusOp.set_addr 9, BusOp.read_word 0xC8, BusOp.read_word 0xC8]⟩) ∧
      pin_stats (lp64 false) ⟨0, 3, 0⟩ ⟨"CON1.5", 5, 1, 1⟩
          (script_bus [0x34F2, 0x34F2, 0x1000])
        = some (st, ⟨(script_bus [0x34F2, 0x34F2, 0x1000]).resp,
           [BusOp.set_addr 9, BusOp.read_word 0xC8, BusOp.read_word 0xC8,
            BusOp.set_addr 9, BusOp.read_word 0xC8, BusOp.read_word 0xC8,
            BusOp.set_addr 9, BusOp.read_word 0xC8, BusOp.read_word 0xC8]⟩)) :=
  ⟨⟨by decide, by decide, rfl, rfl⟩,
   aggregator_last_sample false ⟨0, 3, 0⟩ ⟨"CON1.5", 5, 1, 1⟩ _ _ _ _ [4727, 4727] 4727 1
     (by decide) (by decide) rfl rfl⟩

theorem sample_valid (o : Opts) (p : pin_info) (b : Bus)
    (hadc : p.adc_idx < 6) (hch : p.ch_idx < 8) : ∃ v b1, sample o p b = some (v, b1) := by
  unfold sample
  rw [read_pin_value_valid p b hadc hch]
  by_cases h0 : b.resp b.log.length = 0
  · rw [if_pos h0]; exact ⟨_, _, rfl⟩
  · rw [if_neg h0]; exact ⟨_, _, rfl⟩

theorem iter_loop_valid (t : Target) (o : Opts) (p : pin_info)
    (hadc : p.adc_idx < 6) (hch : p.ch_idx < 8) :
    ∀ (k : Nat) (a : Acc) (b : Bus), ∃ a1 b1, iter_loop t o p k a b = some (a1, b1) := by
  intro k
  induction k with
  | zero => intro a b; exact ⟨a, b, rfl⟩
  | succ k ih =>
    intro a b
    obtain ⟨v, b1, hs⟩ := sample_valid o p b hadc hch
    obtain ⟨a2, b2, h2⟩ := ih ⟨(a.avr + a.real) % word_mod t,
      if a.real > a.max then a.real else a.max, if a.real < a.min then a.real else a.min, v⟩ b1
    exact ⟨a2, b2, by simp only [iter_loop, hs, h2]⟩

theorem pin_stats_valid (t : Target) (o : Opts) (p : pin_info) (b : Bus)
    (hadc : p.adc_idx < 6) (hch : p.ch_idx < 8) :
    ∃ st b1, pin_stats t o p b = some (st, b1) := by
  obtain ⟨v, b1, hs⟩ := sample_valid o p b hadc hch
  obtain ⟨a2, b2, h2⟩ := iter_loop_valid t o p hadc hch
    (if o.opt_iter > 0 then o.opt_iter - 1 else 0) ⟨v, v, v, v⟩ b1
  refine ⟨⟨if o.opt_iter ≠ 0 then a2.avr / o.opt_iter else a2.avr, a2.max, a2.min⟩, b2, ?_⟩
  simp only [pin_stats, hs, h2]

/-- C10: when the chip is selected and the result transaction returns a
negative value, read_pin_value returns the raw code 0 after its three
transactions (the converted sample is 0 as well); and for a pin inside both
tables the per-pin loop returns statistics whatever the bus answers, so no
answer aborts the sweep. -/
theorem read_pin_value_failure (info : pin_info) (b : Bus)
    (hadc : info.adc_idx < 6) (hch : info.ch_idx < 8)
    (hsel : b.resp b.log.length = 0) (hneg : b.resp (b.log.length + 2) < 0) :
    (∃ b1, read_pin_value info b = some (0, b1) ∧
      (∀ o, sample o info b = some (0, b1)) ∧
      b1.log = b.log ++ [BusOp.set_addr ADC_ADDR[info.adc_idx],
        BusOp.read_word ADC_CH[info.ch_idx], BusOp.read_word ADC_CH[info.ch_idx]]) ∧
    (∀ t o c, ∃ st c1, pin_stats t o info c = some (st, c1)) := by
  refine ⟨⟨⟨b.resp, b.log ++ [BusOp.set_addr ADC_ADDR[info.adc_idx],
      BusOp.read_word ADC_CH[info.ch_idx], BusOp.read_word ADC_CH[info.ch_idx]]⟩, ?_, ?_, rfl⟩,
    fun t o c => pin_stats_valid t o info c hadc hch⟩
  · rw [read_pin_value_valid info b hadc hch, if_pos hsel, raw_code_neg _ hneg]
  · intro o
    unfold sample
    rw [read_pin_value_valid info b hadc hch, if_pos hsel, raw_code_neg _ hneg]
    simp [adc_convert_value]

/-- A failed result transaction (-1) for CON1.5 yields the raw code 0. -/
theorem read_pin_value_failure_witness :
    (1 < 6 ∧ 1 < 8 ∧ (script_bus [-1]).resp (script_bus [-1]).log.length = 0 ∧
      (script_bus [-1]).resp ((script_bus [-1]).log.length + 2) < 0) ∧
    ((∃ b1, read_pin_value ⟨"CON1.5", 5, 1, 1⟩ (script_bus [-1]) = some (0, b1) ∧
        (∀ o, sample o ⟨"CON1.5", 5, 1, 1⟩ (script_bus [-1]) = some (0, b1)) ∧
        b1.log = (script_bus [-1]).log ++ [BusOp.set_addr ADC_ADDR[1],
          BusOp.read_word ADC_CH[1], BusOp.read_word ADC_CH[1]]) ∧
      (∀ t o c, ∃ st c1, pin_stats t o ⟨"CON1.5", 5, 1, 1⟩ c = some (st, c1))) :=
  ⟨⟨by decide, by decide, by decide, by decide⟩,
   read_pin_value_failure ⟨"CON1.5", 5, 1, 1⟩ (script_bus [-1])
     (by decide) (by decide) (by decide) (by decide)⟩

/-! ## Unused pins -/

/-- C11: the identifier "CON1.6" resolves to the single entry CON1.6, whose
chip slot is the sentinel NOT_USED = 7; print_pin_info hands it to
read_pin_value without any test, and the lookup ADC_ADDR[7] lies outside the
6-entry address table, so the sample and the whole report are undefined. -/
theorem unused_pin_sampled :
    (∀ sgn : Bool, resolve (lp64 sgn) "CON1.6".toList = some ⟨HEADER_CON1, 6, 1⟩) ∧
    Span.entries ⟨HEADER_CON1, 6, 1⟩ = some [⟨"CON1.6", 6, NOT_USED, 0⟩] ∧
    ¬ (NOT_USED < ADC_ADDR.length) ∧
    ADC_ADDR[NOT_USED]? = none ∧
    (∀ b, read_pin_value ⟨"CON1.6", 6, NOT_USED, 0⟩ b = none) ∧
    (∀ sgn o b, print_pin_info (lp64 sgn) o b "CON1.6".toList = none) := by
  refine ⟨by decide, by decide, by decide, by decide, fun b => rfl, ?_⟩
  intro sgn o b
  cases sgn <;> rfl

/-! ## Sample protocol -/

/-- C13: for a pin inside both tables, when the chip-address selection
succeeds read_pin_value performs, after the selection, exactly two word reads,
both with the command byte ADC_CH[ch_idx]; its result is decoded from the
value of the second read, and a bus that answers the first read differently
(and everything else alike) gives the same result. -/
theorem read_pin_value_protocol (info : pin_info) (b : Bus)
    (hadc : info.adc_idx < 6) (hch : info.ch_idx < 8)
    (hsel : b.resp b.log.length = 0) :
    read_pin_value info b =
      some (raw_code (b.resp (b.log.length + 2)),
        ⟨b.resp, b.log ++ [BusOp.set_addr ADC_ADDR[info.adc_idx],
          BusOp.read_word ADC_CH[info.ch_idx], BusOp.read_word ADC_CH[info.ch_idx]]⟩) ∧
    (∀ c : Bus, c.log = b.log → (∀ k, k ≠ b.log.length + 1 → c.resp k = b.resp k) →
      (read_pin_value info c).map Prod.fst = (read_pin_value info b).map Prod.fst) := by
  have hb := read_pin_value_valid info b hadc hch
  rw [if_pos hsel] at hb
  refine ⟨hb, ?_⟩
  intro c hlog hresp
  have hc := read_pin_value_valid info c hadc hch
  have hsel2 : c.resp c.log.length = 0 := by
    rw [hlog, hresp _ (by omega)]; exact hsel
  rw [if_pos hsel2, hlog, hresp _ (by omega)] at hc
  rw [hb, hc]
  rfl

/-- On CON1.5 the trigger read may return 0x1234 or 0x34F2: the three
transactions and the decoded second word 0x34F2 are the same. -/
theorem read_pin_value_protocol_witness :
    (1 < 6 ∧ 1 < 8 ∧ (const_bus 0x34F2).resp (const_bus 0x34F2).log.length = 0) ∧
    (read_pin_value ⟨"CON1.5", 5, 1, 1⟩ (const_bus 0x34F2) =
        some (raw_code ((const_bus 0x34F2).resp ((const_bus 0x34F2).log.length + 2)),
          ⟨(const_bus 0x34F2).resp, (const_bus 0x34F2).log ++ [BusOp.set_addr ADC_ADDR[1],
            BusOp.read_word ADC_CH[1], BusOp.read_word ADC_CH[1]]⟩) ∧
      (∀ c : Bus, c.log = (const_bus 0x34F2).log →
        (∀ k, k ≠ (const_bus 0x34F2).log.length + 1 → c.resp k = (const_bus 0x34F2).resp k) →
        (read_pin_value ⟨"CON1.5", 5, 1, 1⟩ c).map Prod.fst
          = (read_pin_value ⟨"CON1.5", 5, 1, 1⟩ (const_bus 0x34F2)).map Prod.fst)) ∧
    (read_pin_value ⟨"CON1.5", 5, 1, 1⟩ (script_bus [0x34F2])).map Prod.fst = some 0xF23 :=
  ⟨⟨by decide, by decide, by decide⟩,
   read_pin_value_protocol ⟨"CON1.5", 5, 1, 1⟩ (const_bus 0x34F2)
     (by decide) (by decide) (by decide),
   by decide⟩

/-! ## Iteration-count option -/

/-- C14: the arguments "256" and "-1" of the option -i do not give the clamped
counts 100 and 0: atoi returns 256 and -1, the unsigned char opt_iter keeps 0
and 255, and the limit to 100 is applied afterwards, which leaves 0 and 100.
"300" gives 44.  In-range arguments such as "37" and "100" are kept. -/
theorem parse_iter_wraps :
    atoi "256".toList = 256 ∧ parse_iter "256".toList = 0 ∧ spec_clamp_iter 256 = 100 ∧
    atoi "-1".toList = -1 ∧ parse_iter "-1".toList = 100 ∧ spec_clamp_iter (-1) = 0 ∧
    atoi "300".toList = 300 ∧ parse_iter "300".toList = 44 ∧ spec_clamp_iter 300 = 100 ∧
    parse_iter "37".toList = 37 ∧ parse_iter "100".toList = 100 ∧
    parse_iter "255".toList = 100 := by
  decide

/-! ## Resolver bounds and table well-formedness -/

theorem header_branch_bounds (sgn : Bool) (tbl : List pin_info) (pin_no : Int)
    (hlen : 1 ≤ tbl.length) (hmax : tbl.length ≤ 256)
    (hlo : -128 ≤ pin_no) (hhi : pin_no ≤ 255) :
    (header_branch (lp64 sgn) tbl pin_no).tbl = tbl ∧
    1 ≤ (header_branch (lp64 sgn) tbl pin_no).start ∧
    (header_branch (lp64 sgn) tbl pin_no).start + (header_branch (lp64 sgn) tbl pin_no).cnt
      ≤ tbl.length := by
  unfold header_branch
  simp only
  by_cases h : to_size_t (lp64 sgn) pin_no < tbl.length
  · rw [if_pos h]
    by_cases h0 : pin_no = 0
    · simp [h0]; omega
    · simp only [h0, ne_eq, not_false_eq_true, if_true]
      unfold to_size_t at h
      rw [word_mod_lp64] at h
      refine ⟨trivial, ?_, ?_⟩ <;> omega
  · rw [if_neg h]
    simp
    omega

theorem header_tables_length : ∀ kt ∈ HEADERS, 1 ≤ kt.2.length ∧ kt.2.length ≤ 256 := by
  decide

/-- The span header_info returns is either the empty span or a branch result
for one of the nine tables. -/
theorem header_info_cases (t : Target) (h : List Char) (pin_no : Int) :
    header_info t h pin_no = ⟨HEADER_CON1, 0, 0⟩ ∨
    ∃ kt ∈ HEADERS, header_info t h pin_no = header_branch t kt.2 pin_no := by
  unfold header_info
  split
  · exact Or.inr ⟨("CON1", HEADER_CON1), by decide, rfl⟩
  split
  · exact Or.inr ⟨("P3", HEADER_P3), by decide, rfl⟩
  split
  · exact Or.inr ⟨("P13", HEADER_P13), by decide, rfl⟩
  split
  · exact Or.inr ⟨("P1_1", HEADER_P1_1), by decide, rfl⟩
  split
  · exact Or.inr ⟨("P1_2", HEADER_P1_2), by decide, rfl⟩
  split
  · exact Or.inr ⟨("P1_3", HEADER_P1_3), by decide, rfl⟩
  split
  · exact Or.inr ⟨("P1_4", HEADER_P1_4), by decide, rfl⟩
  split
  · exact Or.inr ⟨("P1_5", HEADER_P1_5), by decide, rfl⟩
  split
  · exact Or.inr ⟨("P1_6", HEADER_P1_6), by decide, rfl⟩
  · exact Or.inl rfl

/-- C15: on a target with 8-byte pointers, for every header-name string and
every pin number a char can hold (-128 .. 255), the span header_info returns
is either empty (count 0) or lies inside its table: start index at least 1 and
start index + count at most the number of entries; so the entries of the span
are defined. -/
theorem header_info_bounds (sgn : Bool) (h_name : List Char) (pin_no : Int)
    (hlo : -128 ≤ pin_no) (hhi : pin_no ≤ 255) :
    ((header_info (lp64 sgn) h_name pin_no).cnt = 0 ∨
      (1 ≤ (header_info (lp64 sgn) h_name pin_no).start ∧
        (header_info (lp64 sgn) h_name pin_no).start + (header_info (lp64 sgn) h_name pin_no).cnt
          ≤ (header_info (lp64 sgn) h_name pin_no).tbl.length)) ∧
    ∃ es, Span.entries (header_info (lp64 sgn) h_name pin_no) = some es ∧
      es.length = (header_info (lp64 sgn) h_name pin_no).cnt := by
  rcases header_info_cases (lp64 sgn) h_name pin_no with h0 | ⟨kt, hkt, hbr⟩
  · rw [h0]
    exact ⟨Or.inl rfl, [], rfl, rfl⟩
  · obtain ⟨hl1, hl2⟩ := header_tables_length kt hkt
    obtain ⟨ht, hs, hc⟩ := header_branch_bounds sgn kt.2 pin_no hl1 hl2 hlo hhi
    rw [hbr]
    rw [ht] 
    refine ⟨Or.inr ⟨hs, hc⟩, ?_⟩
    unfold Span.entries
    rw [ht]
    by_cases hz : (header_branch (lp64 sgn) kt.2 pin_no).cnt = 0
    · rw [if_pos hz]; exact ⟨[], rfl, hz.symm⟩
    · rw [if_neg hz, if_pos hc]
      refine ⟨_, rfl, ?_⟩
      rw [List.length_take, List.length_drop]
      omega

/-- The pin numbers -3 and 200 with the name "P3" give the full span of P3, 5
gives the single pin P3.5. -/
theorem header_info_bounds_witness :
    ((-128 : Int) ≤ -3 ∧ (-3 : Int) ≤ 255) ∧
    (((header_info (lp64 true) "P3".toList (-3)).cnt = 0 ∨
      (1 ≤ (header_info (lp64 true) "P3".toList (-3)).start ∧
        (header_info (lp64 true) "P3".toList (-3)).start
          + (header_info (lp64 true) "P3".toList (-3)).cnt
          ≤ (header_info (lp64 true) "P3".toList (-3)).tbl.length)) ∧
    ∃ es, Span.entries (header_info (lp64 true) "P3".toList (-3)) = some es ∧
      es.length = (header_info (lp64 true) "P3".toList (-3)).cnt) ∧
    header_info (lp64 true) "P3".toList (-3) = ⟨HEADER_P3, 1, 10⟩ ∧
    header_info (lp64 false) "P3".toList 200 = ⟨HEADER_P3, 1, 10⟩ ∧
    header_info (lp64 true) "P3".toList 5 = ⟨HEADER_P3, 5, 1⟩ :=
  ⟨⟨by decide, by decide⟩,
   header_info_bounds true "P3".toList (-3) (by decide) (by decide),
   by decide, by decide, by decide⟩

theorem header_tables_wf : ∀ kt ∈ HEADERS, ∀ i < kt.2.length,
    (kt.2[i]?).all (fun e => decide (e.pin_num = i) && decide (e.ch_idx ≤ 7) &&
      (decide (e.adc_idx < CHIP_ADC_CNT) || decide (e.adc_idx = NOT_USED))) = true := by
  decide

/-- C16: in each of the nine header tables the entry at index i has
pin_num = i, every entry has ch_idx in [0, 7], and every entry's adc_idx is a
chip slot below CHIP_ADC_CNT = 6 or the sentinel NOT_USED. -/
theorem header_table_well_formed (key : String) (tbl : List pin_info) (i : Nat)
    (hreg : (key, tbl) ∈ HEADERS) (hi : i < tbl.length) :
    ∃ e, tbl[i]? = some e ∧ e.pin_num = i ∧ e.ch_idx ≤ 7 ∧
      (e.adc_idx < 6 ∨ e.adc_idx = NOT_USED) := by
  have h := header_tables_wf (key, tbl) hreg i hi
  have hn : tbl[i]? = some (tbl[i]) := List.getElem?_eq_getElem hi
  refine ⟨tbl[i], hn, ?_⟩
  simp only [hn, Option.all_some, Bool.and_eq_true, Bool.or_eq_true, decide_eq_true_eq] at h
  exact ⟨h.1.1, h.1.2, h.2⟩

/-- The entry at index 3 of P13 is P13.3 on chip 0, channel 5. -/
theorem header_table_well_formed_witness :
    (("P13", HEADER_P13) ∈ HEADERS ∧ 3 < HEADER_P13.length) ∧
    (∃ e, HEADER_P13[3]? = some e ∧ e.pin_num = 3 ∧ e.ch_idx ≤ 7 ∧
      (e.adc_idx < 6 ∨ e.adc_idx = NOT_USED)) ∧
    HEADER_P13[3]? = some ⟨"P13.3", 3, CHIP_ADC0, 5⟩ :=
  ⟨⟨by decide, by decide⟩,
   header_table_well_formed "P13" HEADER_P13 3 (by decide) (by decide),
   by decide⟩

/-! ## Case of the header portion -/

theorem ofNat_upper_toNat (n : Nat) (h1 : 97 ≤ n) (h2 : n ≤ 122) :
    (Char.ofNat (n - 32)).toNat = n - 32 := by
  interval_cases n <;> rfl

theorem toUpper_toNat (c : Char) :
    c.toUpper.toNat = if 97 ≤ c.toNat ∧ c.toNat ≤ 122 then c.toNat - 32 else c.toNat := by
  unfold Char.toUpper
  simp only [ge_iff_le]
  split
  · rename_i h
    exact ofNat_upper_toNat _ h.1 h.2
  · rfl

theorem toUpper_of_not_lower (x : Char) (h : ¬ (97 ≤ x.toNat ∧ x.toNat ≤ 122)) :
    x.toUpper = x := by
  unfold Char.toUpper
  simp only [ge_iff_le]
  rw [if_neg h]

theorem toUpper_idem (c : Char) : c.toUpper.toUpper = c.toUpper := by
  apply toUpper_of_not_lower
  rw [toUpper_toNat c]
  split <;> omega

theorem toUpper_ne_dot (c : Char) (hc : c ≠ '.') : c.toUpper ≠ '.' := by
  intro h
  have h1 := toUpper_toNat c
  rw [h] at h1
  have h46 : ('.' : Char).toNat = 46 := rfl
  rw [h46] at h1
  have hc46 : c.toNat = 46 := by
    split at h1 <;> omega
  apply hc
  rw [← Char.ofNat_toNat c, hc46]

theorem dropWhile_head {α : Type} (p : α → Bool) (l : List α) :
    l.dropWhile p = [] ∨ ∃ x l1, l.dropWhile p = x :: l1 ∧ p x = false := by
  induction l with
  | nil => exact Or.inl rfl
  | cons a l ih =>
    by_cases ha : p a = true
    · rw [List.dropWhile_cons_of_pos ha]; exact ih
    · rw [List.dropWhile_cons_of_neg ha]
      exact Or.inr ⟨a, l, rfl, by simpa using ha⟩

/-- The first strtok call on a string that consists of a non-empty part
without '.' followed by nothing or by a part that begins with '.'. -/
theorem strtok_split (A B : List Char) (hA : A ≠ []) (hall : ∀ x ∈ A, x ≠ '.')
    (hB : B = [] ∨ ∃ B1, B = '.' :: B1) :
    strtok (A ++ B) ['.'] = (some A, B.drop 1) := by
  have hd : (A ++ B).dropWhile (fun c => ['.'].contains c) = A ++ B := by
    cases A with
    | nil => exact absurd rfl hA
    | cons a A1 =>
      have ha : a ≠ '.' := hall a (List.mem_cons_self _ _)
      simp [List.dropWhile, ha]
  have hpos : ∀ x ∈ A, (fun c : Char => !(['.'].contains c)) x = true := by
    intro x hx
    simp [hall x hx]
  have hne : (A ++ B).isEmpty = false := by
    cases A with
    | nil => exact absurd rfl hA
    | cons a A1 => rfl
  have htB : B.takeWhile (fun c : Char => !(['.'].contains c)) = [] := by
    rcases hB with rfl | ⟨B1, rfl⟩
    · rfl
    · simp
  have hdB : B.dropWhile (fun c : Char => !(['.'].contains c)) = B := by
    rcases hB with rfl | ⟨B1, rfl⟩
    · rfl
    · simp
  unfold strtok
  simp only [hd, hne, Bool.false_eq_true, if_false]
  rw [List.takeWhile_append_of_pos hpos, List.dropWhile_append_of_pos hpos, htB, hdB,
    List.append_nil]

/-- Converting the header portion to upper case does not change what
print_pin_info parses from the identifier. -/
theorem parse_name_upper_header (sgn : Bool) (s : List Char) :
    parse_name (lp64 sgn) (upper_header s) = parse_name (lp64 sgn) s := by
  have hsplit : s.takeWhile (fun c => c != '.') ++ s.dropWhile (fun c => c != '.') = s :=
    List.takeWhile_append_dropWhile _ s
  by_cases hh : s.takeWhile (fun c => c != '.') = []
  · have hs : upper_header s = s := by
      unfold upper_header
      rw [hh] at hsplit ⊢
      simpa using hsplit
    rw [hs]
  · have hall : ∀ x ∈ (s.takeWhile (fun c => c != '.')).take 8, x ≠ '.' := by
      intro x hx
      have hp := List.mem_takeWhile_imp (List.mem_of_mem_take hx)
      simpa using hp
    have hallu : ∀ x ∈ ((s.takeWhile (fun c => c != '.')).take 8).map Char.toUpper,
        x ≠ '.' := by
      intro x hx
      obtain ⟨y, hy, rfl⟩ := List.mem_map.mp hx
      exact toUpper_ne_dot y (hall y hy)
    have hA : (s.takeWhile (fun c => c != '.')).take 8 ≠ [] := by
      cases hcase : s.takeWhile (fun c => c != '.') with
      | nil => exact absurd hcase hh
      | cons a l => simp
    have hAu : ((s.takeWhile (fun c => c != '.')).take 8).map Char.toUpper ≠ [] := by
      simpa using hA
    have hB : (s.dropWhile (fun c => c != '.')).take (8 - (s.takeWhile (fun c => c != '.')).length)
          = [] ∨ ∃ B1, (s.dropWhile (fun c => c != '.')).take
            (8 - (s.takeWhile (fun c => c != '.')).length) = '.' :: B1 := by
      rcases dropWhile_head (fun c => c != '.') s with h0 | ⟨x, l1, hx, hpx⟩
      · left; rw [h0]; simp
      · have hxd : x = '.' := by simpa using hpx
        rw [hx, hxd]
        cases 8 - (s.takeWhile (fun c => c != '.')).length with
        | zero => left; rfl
        | succ k => right; exact ⟨l1.take k, rfl⟩
    have h1 : (List.take 8 s) = (s.takeWhile (fun c => c != '.')).take 8 ++
        (s.dropWhile (fun c => c != '.')).take (8 - (s.takeWhile (fun c => c != '.')).length) := by
      conv_lhs => rw [← hsplit]
      exact List.take_append_eq_append_take
    have h2 : (List.take 8 (upper_header s)) =
        ((s.takeWhile (fun c => c != '.')).take 8).map Char.toUpper ++
        (s.dropWhile (fun c => c != '.')).take (8 - (s.takeWhile (fun c => c != '.')).length) := by
      unfold upper_header
      rw [List.take_append_eq_append_take, List.map_take, List.length_map]
    have hlen : ((s.takeWhile (fun c => c != '.')).take 8).length ≤ 12 := by
      rw [List.length_take]; omega
    have hlenu : (((s.takeWhile (fun c => c != '.')).take 8).map Char.toUpper).length ≤ 12 := by
      rw [List.length_map]; exact hlen
    have hup : toupper_str (((s.takeWhile (fun c => c != '.')).take 8).map Char.toUpper)
        = toupper_str ((s.takeWhile (fun c => c != '.')).take 8) := by
      rw [toupper_str_short _ hlen, toupper_str_short _ hlenu, List.map_map]
      apply List.map_congr_left
      intro a _
      exact toUpper_idem a
    unfold parse_name
    simp only [lp64]
    rw [h1, h2, strtok_split _ _ hA hall hB, strtok_split _ _ hAu hallu hB]
    simp only [Option.map_some', hup]

/-- C12: on a target with 8-byte pointers, for every identifier string s,
resolving s with its header portion (everything before the first '.')
converted to upper case yields the same result as resolving s; so "con1.5" and
"Con1.5" resolve as "CON1.5" and "p3" as "P3". -/
theorem resolve_case_insensitive :
    (∀ (sgn : Bool) (s : List Char),
      resolve (lp64 sgn) (upper_header s) = resolve (lp64 sgn) s) ∧
    upper_header "con1.5".toList = "CON1.5".toList ∧
    upper_header "Con1.5".toList = "CON1.5".toList ∧
    upper_header "p3".toList = "P3".toList ∧
    resolve (lp64 true) "con1.5".toList = some ⟨HEADER_CON1, 5, 1⟩ ∧
    resolve (lp64 true) "p3".toList = some ⟨HEADER_P3, 1, 10⟩ := by
  refine ⟨?_, by decide, by decide, by decide, by decide, by decide⟩
  intro sgn s
  unfold resolve
  rw [parse_name_upper_header sgn s]

/-! ## Names of the table entries -/

/-- C19, as stated, fails: the entry at index 3 of HEADER_P1_1 is named
"P1-1.3", and resolving that name yields the empty span, because the header
key is "P1_1"; the identifier "P1_1.3" does resolve to the entry. -/
theorem name_round_trip_p1 :
    HEADER_P1_1[3]? = some ⟨"P1-1.3", 3, CHIP_ADC0, 2⟩ ∧
    (∀ sgn : Bool,
      resolve (lp64 sgn) "P1-1.3".toList = some ⟨HEADER_CON1, 0, 0⟩ ∧
      resolve (lp64 sgn) "P1-1.3".toList ≠ some ⟨HEADER_P1_1, 3, 1⟩ ∧
      resolve (lp64 sgn) "P1_1.3".toList = some ⟨HEADER_P1_1, 3, 1⟩) := by
  decide

/-- The names of all entries of the nine tables, resolved one by one. -/
theorem name_round_trip_all : ∀ sgn : Bool, ∀ kt ∈ HEADERS, ∀ i < kt.2.length, 1 ≤ i →
    (kt.2[i]?).all (fun e =>
      if kt.1 = "CON1" ∨ kt.1 = "P3" ∨ kt.1 = "P13" then
        decide (resolve (lp64 sgn) e.name.toList = some ⟨kt.2, i, 1⟩) &&
        decide (Span.entries ⟨kt.2, i, 1⟩ = some [e])
      else decide (resolve (lp64 sgn) e.name.toList = some ⟨HEADER_CON1, 0, 0⟩)) = true := by
  decide

/-- C19, amended: on a target with 8-byte pointers, for the tables of the
headers CON1, P3 and P13 and every entry e at an index i >= 1, resolving the
name of e yields the single-element span that consists of e; the entries of
the tables P1_1 .. P1_6 are named "P1-x.n", and resolving such a name yields
the empty span. -/
theorem name_round_trip (sgn : Bool) (key : String) (tbl : List pin_info) (i : Nat)
    (hreg : (key, tbl) ∈ HEADERS) (h1 : 1 ≤ i) (hi : i < tbl.length) :
    ∃ e, tbl[i]? = some e ∧
      ((key = "CON1" ∨ key = "P3" ∨ key = "P13") →
        resolve (lp64 sgn) e.name.toList = some ⟨tbl, i, 1⟩ ∧
        Span.entries ⟨tbl, i, 1⟩ = some [e]) ∧
      (¬ (key = "CON1" ∨ key = "P3" ∨ key = "P13") →
        resolve (lp64 sgn) e.name.toList = some ⟨HEADER_CON1, 0, 0⟩) := by
  have h := name_round_trip_all sgn (key, tbl) hreg i hi h1
  have hn : tbl[i]? = some (tbl[i]) := List.getElem?_eq_getElem hi
  refine ⟨tbl[i], hn, ?_, ?_⟩
  · intro hk
    simp only [hn, Option.all_some, if_pos hk, Bool.and_eq_true, decide_eq_true_eq] at h
    exact h
  · intro hk
    simp only [hn, Option.all_some, if_neg hk, decide_eq_true_eq] at h
    exact h

/-- The name "CON1.12" resolves to the entry at index 12 of CON1. -/
theorem name_round_trip_witness :
    (("CON1", HEADER_CON1) ∈ HEADERS ∧ 1 ≤ 12 ∧ 12 < HEADER_CON1.length) ∧
    (∃ e, HEADER_CON1[12]? = some e ∧
      (("CON1" = "CON1" ∨ "CON1" = "P3" ∨ "CON1" = "P13") →
        resolve (lp64 false) e.name.toList = some ⟨HEADER_CON1, 12, 1⟩ ∧
        Span.entries ⟨HEADER_CON1, 12, 1⟩ = some [e]) ∧
      (¬ ("CON1" = "CON1" ∨ "CON1" = "P3" ∨ "CON1" = "P13") →
        resolve (lp64 false) e.name.toList = some ⟨HEADER_CON1, 0, 0⟩)) ∧
    resolve (lp64 false) "CON1.12".toList = some ⟨HEADER_CON1, 12, 1⟩ :=
  ⟨⟨by decide, by decide, by decide⟩,
   name_round_trip false "CON1" HEADER_CON1 12 (by decide) (by decide) (by decide),
   by decide⟩

/-! ## Order of the statistics and absence of overflow -/

theorem draw_valid (o : Opts) (p : pin_info) (hadc : p.adc_idx < 6) (hch : p.ch_idx < 8) :
    ∀ (n : Nat) (b : Bus), ∃ vs b1, draw o p n b = some (vs, b1) := by
  intro n
  induction n with
  | zero => intro b; exact ⟨[], b, rfl⟩
  | succ k ih =>
    intro b
    obtain ⟨v, b1, hs⟩ := sample_valid o p b hadc hch
    obtain ⟨vs, b2, hd⟩ := ih b1
    exact ⟨v :: vs, b2, by simp only [draw, hs, hd]⟩

theorem init_le_foldl_max (l : List Nat) : ∀ (m : Nat), m ≤ l.foldl max m := by
  induction l with
  | nil => intro m; exact Nat.le_refl _
  | cons a l ih =>
    intro m
    exact Nat.le_trans (Nat.le_max_left m a) (ih (max m a))

theorem foldl_min_le_mem (l : List Nat) : ∀ (m x : Nat), x ∈ l → l.foldl min m ≤ x := by
  induction l with
  | nil => intro m x hx; simp at hx
  | cons a l ih =>
    intro m x hx
    rcases List.mem_cons.mp hx with rfl | hx
    · exact Nat.le_trans (foldl_min_le l (min m x)) (Nat.min_le_right m x)
    · exact ih (min m a) x hx

theorem le_foldl_max_mem (l : List Nat) : ∀ (m x : Nat), x ∈ l → x ≤ l.foldl max m := by
  induction l with
  | nil => intro m x hx; simp at hx
  | cons a l ih =>
    intro m x hx
    rcases List.mem_cons.mp hx with rfl | hx
    · exact Nat.le_trans (Nat.le_max_right m x) (init_le_foldl_max l (max m x))
    · exact ih (max m a) x hx

theorem sum_le_length_mul (l : List Nat) (M : Nat) (h : ∀ x ∈ l, x ≤ M) :
    l.sum ≤ l.length * M := by
  induction l with
  | nil => simp
  | cons a l ih =>
    have ha := h a (List.mem_cons_self _ _)
    have hl := ih (fun x hx => h x (List.mem_cons_of_mem _ hx))
    simp only [List.sum_cons, List.length_cons, Nat.succ_mul]
    omega

theorem length_mul_le_sum (l : List Nat) (m : Nat) (h : ∀ x ∈ l, m ≤ x) :
    l.length * m ≤ l.sum := by
  induction l with
  | nil => simp
  | cons a l ih =>
    have ha := h a (List.mem_cons_self _ _)
    have hl := ih (fun x hx => h x (List.mem_cons_of_mem _ hx))
    simp only [List.sum_cons, List.length_cons, Nat.succ_mul]
    omega

/-- The statistics of the specification lie in the order min, average, max
when the list holds all the samples of the run. -/
theorem spec_stats_order (N : Nat) (vs : List Nat) (hlen : vs.length = max N 1) :
    (spec_stats N vs).min ≤ (spec_stats N vs).avr ∧
    (spec_stats N vs).avr ≤ (spec_stats N vs).max := by
  unfold spec_stats
  simp only
  by_cases h0 : N = 0
  · subst h0
    simp
  · simp only [h0, if_false]
    have hul : (vs.take (N - 1)).length = N - 1 := by
      rw [List.length_take]; omega
    have hNpos : 0 < N := Nat.pos_of_ne_zero h0
    have hlo := length_mul_le_sum (vs.take (N - 1)) ((vs.take (N - 1)).foldl min (vs.headD 0))
      (fun x hx => foldl_min_le_mem _ _ x hx)
    have hhi := sum_le_length_mul (vs.take (N - 1)) ((vs.take (N - 1)).foldl max (vs.headD 0))
      (fun x hx => le_foldl_max_mem _ _ x hx)
    have hmin0 := foldl_min_le (vs.take (N - 1)) (vs.headD 0)
    have hmax0 := init_le_foldl_max (vs.take (N - 1)) (vs.headD 0)
    rw [hul] at hlo hhi
    generalize (vs.take (N - 1)).foldl min (vs.headD 0) = m at hlo hmin0 ⊢
    generalize (vs.take (N - 1)).foldl max (vs.headD 0) = M at hhi hmax0 ⊢
    generalize (vs.take (N - 1)).sum = S at hlo hhi ⊢
    generalize vs.headD 0 = v at hmin0 hmax0 ⊢
    obtain ⟨k, rfl⟩ : ∃ k, N = k + 1 := ⟨N - 1, by omega⟩
    simp only [Nat.add_sub_cancel] at hlo hhi
    constructor
    · rw [Nat.le_div_iff_mul_le hNpos, Nat.mul_succ, Nat.mul_comm]
      omega
    · apply Nat.div_le_of_le_mul
      rw [Nat.succ_mul]
      omega

theorem foldl_max_const (l : List Nat) (R : Nat) (h : ∀ x ∈ l, x = R) :
    l.foldl max R = R := by
  induction l with
  | nil => rfl
  | cons a l ih =>
    have ha : a = R := h a (List.mem_cons_self _ _)
    simp only [List.foldl_cons, ha, Nat.max_self]
    exact ih (fun x hx => h x (List.mem_cons_of_mem _ hx))

theorem foldl_min_const (l : List Nat) (R : Nat) (h : ∀ x ∈ l, x = R) :
    l.foldl min R = R := by
  induction l with
  | nil => rfl
  | cons a l ih =>
    have ha : a = R := h a (List.mem_cons_self _ _)
    simp only [List.foldl_cons, ha, Nat.min_self]
    exact ih (fun x hx => h x (List.mem_cons_of_mem _ hx))

/-- Constant samples give average = max = min. -/
theorem spec_stats_const (N : Nat) (vs : List Nat) (R : Nat) (hlen : vs.length = max N 1)
    (hR : ∀ v ∈ vs, v = R) : spec_stats N vs = ⟨R, R, R⟩ := by
  have hord := spec_stats_order N vs hlen
  cases vs with
  | nil => simp at hlen; omega
  | cons v rest =>
    have hv : v = R := hR v (List.mem_cons_self _ _)
    have hused : ∀ x ∈ (v :: rest).take (N - 1), x = R :=
      fun x hx => hR x (List.mem_of_mem_take hx)
    have hmax : (spec_stats N (v :: rest)).max = R := by
      simp only [spec_stats, List.headD_cons, hv]
      rw [← hv]; rw [hv]
      exact foldl_max_const _ R (by rw [← hv]; intro x hx; rw [hv]; exact hused x hx)
    have hmin : (spec_stats N (v :: rest)).min = R := by
      simp only [spec_stats, List.headD_cons, hv]
      exact foldl_min_const _ R (by rw [← hv]; intro x hx; rw [hv]; exact hused x hx)
    have havr : (spec_stats N (v :: rest)).avr = R := by
      rw [hmax, hmin] at hord
      omega
    cases hst : spec_stats N (v :: rest) with
    | mk a mx mn =>
      rw [hst] at hmax hmin havr
      simp only at hmax hmin havr
      rw [hmax, hmin, havr]

theorem word_mod_wide (t : Target) (ht : 4 ≤ t.ptr_size) : 4294967296 ≤ word_mod t := by
  unfold word_mod
  calc 4294967296 = 2 ^ 32 := by norm_num
    _ ≤ 2 ^ (8 * t.ptr_size) := Nat.pow_le_pow_right (by norm_num) (by omega)

/-- The loop of one pin on any target whose unsigned long has at least 32
bits: the accumulated sum, before the division, is the exact sum
v1 + (v1 + .. + v_(N-1)), and the statistics are those of the specification. -/
theorem pin_stats_exact (t : Target) (ht : 4 ≤ t.ptr_size) (o : Opts) (p : pin_info)
    (b b1 : Bus) (vs : List Nat) (hN : o.opt_iter ≤ 100)
    (hdraw : draw o p (max o.opt_iter 1) b = some (vs, b1)) :
    (∃ v b2 a, sample o p b = some (v, b2) ∧
      iter_loop t o p (o.opt_iter - 1) ⟨v, v, v, v⟩ b2 = some (a, b1) ∧
      a.avr = vs.headD 0 + (vs.take (o.opt_iter - 1)).sum) ∧
    pin_stats t o p b = some (spec_stats o.opt_iter vs, b1) := by
  have hmax : max o.opt_iter 1 = (o.opt_iter - 1) + 1 := by omega
  rw [hmax] at hdraw
  obtain ⟨v, b2, rest, hs, hd, rfl⟩ := draw_succ o p _ b b1 vs hdraw
  have hv := sample_le o p b b2 v hs
  have hiter : (if o.opt_iter > 0 then o.opt_iter - 1 else 0) = o.opt_iter - 1 := by
    split <;> omega
  have hw := word_mod_wide t ht
  obtain ⟨r, hr⟩ := iter_loop_spec t o p (o.opt_iter - 1) ⟨v, v, v, v⟩ b2 b1 rest hd hv
    (by simp only; omega)
  refine ⟨⟨v, b2, _, hs, hr, rfl⟩, ?_⟩
  unfold pin_stats
  simp only [hs, hiter, hr, spec_stats, List.headD_cons]
  by_cases h0 : o.opt_iter = 0
  · simp [h0]
  · simp [h0]

/-- The exact accumulated sum of a run of at most 100 iterations stays below
2^31. -/
theorem sum_bound (N : Nat) (vs : List Nat) (hN : N ≤ 100) (hlen : vs.length = max N 1)
    (hb : ∀ v ∈ vs, v ≤ 4995900) :
    vs.headD 0 + (vs.take (N - 1)).sum ≤ 499590000 := by
  have hhead : vs.headD 0 ≤ 4995900 := by
    cases vs with
    | nil => simp
    | cons x xs => exact hb x (List.mem_cons_self _ _)
  have hs := sum_le_length_mul (vs.take (N - 1)) 4995900
    (fun v hv => hb v (List.mem_of_mem_take hv))
  have hl : (vs.take (N - 1)).length ≤ 99 := by
    rw [List.length_take]; omega
  have hm : (vs.take (N - 1)).length * 4995900 ≤ 99 * 4995900 :=
    Nat.mul_le_mul_right _ hl
  omega

/-- C18: for every iteration count N in [0, 100], every pin inside both
tables and every bus, the aggregator returns statistics with
min <= average <= max, so the unsigned difference max - min does not wrap;
and when all samples drawn are equal to R, average = max = min = R and the
spread is 0. -/
theorem aggregator_order (sgn : Bool) (o : Opts) (p : pin_info) (b : Bus)
    (hadc : p.adc_idx < 6) (hch : p.ch_idx < 8) (hN : o.opt_iter ≤ 100) :
    ∃ vs st b1, draw o p (max o.opt_iter 1) b = some (vs, b1) ∧
      pin_stats (lp64 sgn) o p b = some (st, b1) ∧
      st.min ≤ st.avr ∧ st.avr ≤ st.max ∧
      st.diff (lp64 sgn) = st.max - st.min ∧
      (∀ R, (∀ v ∈ vs, v = R) → st = ⟨R, R, R⟩ ∧ st.diff (lp64 sgn) = 0) := by
  obtain ⟨vs, b1, hd⟩ := draw_valid o p hadc hch (max o.opt_iter 1) b
  obtain ⟨hlen, hb⟩ := draw_spec o p _ b b1 vs hd
  obtain ⟨h1, h2⟩ := spec_stats_order o.opt_iter vs hlen
  obtain ⟨h3, h4⟩ := spec_stats_bounds o.opt_iter vs hb
  have hdiff := diff_eq_sub sgn _ h3 h4
  refine ⟨vs, spec_stats o.opt_iter vs, b1, hd, pin_stats_eq_spec sgn o p b b1 vs hN hd,
    h1, h2, hdiff, ?_⟩
  intro R hR
  have hc := spec_stats_const o.opt_iter vs R hlen hR
  refine ⟨hc, ?_⟩
  rw [hdiff, hc]
  exact Nat.sub_self R

/-- With N = 3 and the word 0x34F2 at every read, CON1.5 reports
4727, 4727, 4727 and the spread 0. -/
theorem aggregator_order_witness :
    (1 < 6 ∧ 1 < 8 ∧ 3 ≤ 100) ∧
    (∃ vs st b1, draw ⟨0, 3, 0⟩ ⟨"CON1.5", 5, 1, 1⟩ (max 3 1) (const_bus 0x34F2) = some (vs, b1) ∧
      pin_stats (lp64 true) ⟨0, 3, 0⟩ ⟨"CON1.5", 5, 1, 1⟩ (const_bus 0x34F2) = some (st, b1) ∧
      st.min ≤ st.avr ∧ st.avr ≤ st.max ∧
      st.diff (lp64 true) = st.max - st.min ∧
      (∀ R, (∀ v ∈ vs, v = R) → st = ⟨R, R, R⟩ ∧ st.diff (lp64 true) = 0)) ∧
    (pin_stats (lp64 true) ⟨0, 3, 0⟩ ⟨"CON1.5", 5, 1, 1⟩ (const_bus 0x34F2)).map Prod.fst
      = some ⟨4727, 4727, 4727⟩ :=
  ⟨⟨by decide, by decide, by decide⟩,
   aggregator_order true ⟨0, 3, 0⟩ ⟨"CON1.5", 5, 1, 1⟩ (const_bus 0x34F2)
     (by decide) (by decide) (by decide),
   by decide⟩

/-- C20: for every iteration count N <= 100, every pin inside both tables and
every bus (any int answers, failures included), on every target whose int and
unsigned long have at least 32 bits: each raw code is at most 4095 and its
product with the weight at most 4095 * 1220 = 4995900, each converted sample
is at most 4995900, the sum the aggregator accumulates is the exact sum and
at most 100 * 4995900 = 499590000 < 2^31, and the statistics are those of
exact arithmetic. -/
theorem no_overflow (t : Target) (o : Opts) (p : pin_info) (b : Bus)
    (ht : 4 ≤ t.ptr_size) (hadc : p.adc_idx < 6) (hch : p.ch_idx < 8)
    (hN : o.opt_iter ≤ 100) :
    (∀ c v c1, read_pin_value p c = some (v, c1) →
      v ≤ 4095 ∧ (v % 65536) * ADC_WEIGHT_uV ≤ 4995900) ∧
    4095 * 1220 = 4995900 ∧ 100 * 4995900 = 499590000 ∧ 499590000 < 2 ^ 31 ∧
    ∃ vs b1, draw o p (max o.opt_iter 1) b = some (vs, b1) ∧
      (∀ v ∈ vs, v ≤ 4995900) ∧
      (∃ v b2 a, sample o p b = some (v, b2) ∧
        iter_loop t o p (o.opt_iter - 1) ⟨v, v, v, v⟩ b2 = some (a, b1) ∧
        a.avr = vs.headD 0 + (vs.take (o.opt_iter - 1)).sum ∧ a.avr ≤ 499590000) ∧
      pin_stats t o p b = some (spec_stats o.opt_iter vs, b1) := by
  refine ⟨?_, by norm_num, by norm_num, by norm_num, ?_⟩
  · intro c v c1 hr
    have hv := read_pin_value_le p c c1 v hr
    have hw : ADC_WEIGHT_uV = 1220 := by decide
    have hm : v % 65536 = v := Nat.mod_eq_of_lt (by omega)
    rw [hm, hw]
    exact ⟨hv, by omega⟩
  · obtain ⟨vs, b1, hd⟩ := draw_valid o p hadc hch (max o.opt_iter 1) b
    obtain ⟨hlen, hb⟩ := draw_spec o p _ b b1 vs hd
    obtain ⟨⟨v, b2, a, hs, hl, ha⟩, hp⟩ := pin_stats_exact t ht o p b b1 vs hN hd
    have hsum := sum_bound o.opt_iter vs hN hlen hb
    exact ⟨vs, b1, hd, hb, ⟨v, b2, a, hs, hl, ha, by rw [ha]; exact hsum⟩, hp⟩

/-- On a target with 4-byte unsigned long, N = 100 and the largest raw code at
every read (word 0xF0FF, raw code 4095) in microvolt mode: the sum stays exact
and the average is 4995900. -/
theorem no_overflow_witness :
    ((4 : Nat) ≤ (⟨4, true⟩ : Target).ptr_size ∧ 1 < 6 ∧ 1 < 8 ∧ 100 ≤ 100) ∧
    ((∀ c v c1, read_pin_value ⟨"CON1.5", 5, 1, 1⟩ c = some (v, c1) →
        v ≤ 4095 ∧ (v % 65536) * ADC_WEIGHT_uV ≤ 4995900) ∧
      4095 * 1220 = 4995900 ∧ 100 * 4995900 = 499590000 ∧ 499590000 < 2 ^ 31 ∧
      ∃ vs b1, draw ⟨0, 100, 1⟩ ⟨"CON1.5", 5, 1, 1⟩ (max 100 1) (const_bus 0xF0FF)
          = some (vs, b1) ∧
        (∀ v ∈ vs, v ≤ 4995900) ∧
        (∃ v b2 a, sample ⟨0, 100, 1⟩ ⟨"CON1.5", 5, 1, 1⟩ (const_bus 0xF0FF) = some (v, b2) ∧
          iter_loop ⟨4, true⟩ ⟨0, 100, 1⟩ ⟨"CON1.5", 5, 1, 1⟩ (100 - 1) ⟨v, v, v, v⟩ b2
            = some (a, b1) ∧
          a.avr = vs.headD 0 + (vs.take (100 - 1)).sum ∧ a.avr ≤ 499590000) ∧
        pin_stats ⟨4, true⟩ ⟨0, 100, 1⟩ ⟨"CON1.5", 5, 1, 1⟩ (const_bus 0xF0FF)
          = some (spec_stats 100 vs, b1)) ∧
    raw_code 0xF0FF = 4095 ∧ adc_convert_value 1 4095 = 4995900 :=
  ⟨⟨by decide, by decide, by decide, by decide⟩,
   no_overflow ⟨4, true⟩ ⟨0, 100, 1⟩ ⟨"CON1.5", 5, 1, 1⟩ (const_bus 0xF0FF)
     (by decide) (by decide) (by decide) (by decide),
   by decide, by decide⟩

/-! ## Order of the pins of a span -/

/-- What read_pin_value does, as compiled, for an entry with a channel index
inside ADC_CH: the address looked up is selected; on success the command byte
is read twice and the second word is decoded, otherwise 0 is returned. -/
theorem read_pin_value_at_valid (behind : Nat → Nat) (info : pin_info) (b : Bus)
    (hch : info.ch_idx < ADC_CH.length) :
    read_pin_value_at behind info b =
      if b.resp b.log.length = 0 then
        some (raw_code (b.resp (b.log.length + 2)),
          ⟨b.resp, b.log ++ [BusOp.set_addr (ADC_ADDR.getD info.adc_idx (behind info.adc_idx)),
            BusOp.read_word ADC_CH[info.ch_idx], BusOp.read_word ADC_CH[info.ch_idx]]⟩)
      else some (0, ⟨b.resp,
        b.log ++ [BusOp.set_addr (ADC_ADDR.getD info.adc_idx (behind info.adc_idx))]⟩) := by
  unfold read_pin_value_at
  rw [List.getElem?_eq_getElem hch]
  simp [i2c_set_addr, i2c_read_word]

/-- For an entry inside ADC_ADDR the compiled lookup is the table lookup. -/
theorem read_pin_value_at_routed (behind : Nat → Nat) (info : pin_info) (b : Bus)
    (hadc : info.adc_idx < ADC_ADDR.length) :
    read_pin_value_at behind info b = read_pin_value info b := by
  unfold read_pin_value_at read_pin_value
  rw [List.getElem?_eq_getElem hadc, List.getD_eq_getElem _ _ hadc]

theorem sample_at_valid (behind : Nat → Nat) (o : Opts) (p : pin_info) (b : Bus)
    (hch : p.ch_idx < 8) : ∃ v b1, sample_at behind o p b = some (v, b1) := by
  unfold sample_at
  rw [read_pin_value_at_valid behind p b hch]
  by_cases h0 : b.resp b.log.length = 0
  · rw [if_pos h0]; exact ⟨_, _, rfl⟩
  · rw [if_neg h0]; exact ⟨_, _, rfl⟩

/-- The transactions of one sample belong to the pin and leave the answers of
the bus as they are. -/
theorem sample_at_log (behind : Nat → Nat) (o : Opts) (p : pin_info) (b b1 : Bus) (v : Nat)
    (hch : p.ch_idx < 8) (h : sample_at behind o p b = some (v, b1)) :
    b1.resp = b.resp ∧
    ∃ seg, b1.log = b.log ++ seg ∧ ∀ op ∈ seg, pin_op_at behind p op = true := by
  have hch1 : p.ch_idx < ADC_CH.length := hch
  have hc : ADC_CH.getD p.ch_idx 0 = ADC_CH[p.ch_idx] := List.getD_eq_getElem _ _ hch1
  unfold sample_at at h
  rw [read_pin_value_at_valid behind p b hch] at h
  by_cases hsel : b.resp b.log.length = 0
  · rw [if_pos hsel] at h
    simp only [Option.some.injEq, Prod.mk.injEq] at h
    rw [← h.2]
    refine ⟨rfl, _, rfl, ?_⟩
    intro op hop
    simp only [List.mem_cons, List.mem_singleton, List.not_mem_nil, or_false] at hop
    unfold pin_op_at
    rw [hc]
    rcases hop with rfl | rfl | rfl <;> simp
  · rw [if_neg hsel] at h
    simp only [Option.some.injEq, Prod.mk.injEq] at h
    rw [← h.2]
    refine ⟨rfl, _, rfl, ?_⟩
    intro op hop
    simp only [List.mem_singleton] at hop
    unfold pin_op_at
    rw [hop]
    simp

theorem iter_loop_at_valid (behind : Nat → Nat) (t : Target) (o : Opts) (p : pin_info)
    (hch : p.ch_idx < 8) :
    ∀ (k : Nat) (a : Acc) (b : Bus),
      ∃ a1 b1, iter_loop_at behind t o p k a b = some (a1, b1) := by
  intro k
  induction k with
  | zero => intro a b; exact ⟨a, b, rfl⟩
  | succ k ih =>
    intro a b
    obtain ⟨v, b1, hs⟩ := sample_at_valid behind o p b hch
    obtain ⟨a2, b2, h2⟩ := ih ⟨(a.avr + a.real) % word_mod t,
      if a.real > a.max then a.real else a.max, if a.real < a.min then a.real else a.min, v⟩ b1
    exact ⟨a2, b2, by simp only [iter_loop_at, hs, h2]⟩

theorem iter_loop_at_log (behind : Nat → Nat) (t : Target) (o : Opts) (p : pin_info)
    (hch : p.ch_idx < 8) :
    ∀ (k : Nat) (a a1 : Acc) (b b1 : Bus), iter_loop_at behind t o p k a b = some (a1, b1) →
      b1.resp = b.resp ∧
      ∃ seg, b1.log = b.log ++ seg ∧ ∀ op ∈ seg, pin_op_at behind p op = true := by
  intro k
  induction k with
  | zero =>
    intro a a1 b b1 h
    simp only [iter_loop_at, Option.some.injEq, Prod.mk.injEq] at h
    rw [← h.2]
    exact ⟨rfl, [], by simp, by simp⟩
  | succ k ih =>
    intro a a1 b b1 h
    obtain ⟨v, b2, hs⟩ := sample_at_valid behind o p b hch
    simp only [iter_loop_at, hs] at h
    obtain ⟨hr1, seg1, hl1, hp1⟩ := sample_at_log behind o p b b2 v hch hs
    obtain ⟨hr2, seg2, hl2, hp2⟩ := ih _ a1 b2 b1 h
    refine ⟨hr2.trans hr1, seg1 ++ seg2, by rw [hl2, hl1, List.append_assoc], ?_⟩
    intro op hop
    rcases List.mem_append.mp hop with h1 | h2
    · exact hp1 op h1
    · exact hp2 op h2

/-- The loop of one pin returns, and all its transactions belong to that
pin. -/
theorem pin_stats_at_valid (behind : Nat → Nat) (t : Target) (o : Opts) (p : pin_info)
    (b : Bus) (hch : p.ch_idx < 8) :
    ∃ st b1, pin_stats_at behind t o p b = some (st, b1) ∧ b1.resp = b.resp ∧
      ∃ seg, b1.log = b.log ++ seg ∧ ∀ op ∈ seg, pin_op_at behind p op = true := by
  obtain ⟨v, b2, hs⟩ := sample_at_valid behind o p b hch
  obtain ⟨a2, b3, hl⟩ := iter_loop_at_valid behind t o p hch
    (if o.opt_iter > 0 then o.opt_iter - 1 else 0) ⟨v, v, v, v⟩ b2
  obtain ⟨hr1, seg1, hl1, hp1⟩ := sample_at_log behind o p b b2 v hch hs
  obtain ⟨hr2, seg2, hl2, hp2⟩ := iter_loop_at_log behind t o p hch _ _ a2 b2 b3 hl
  refine ⟨⟨if o.opt_iter ≠ 0 then a2.avr / o.opt_iter else a2.avr, a2.max, a2.min⟩, b3, ?_,
    hr2.trans hr1, seg1 ++ seg2, by rw [hl2, hl1, List.append_assoc], ?_⟩
  · simp only [pin_stats_at, hs, hl]
  · intro op hop
    rcases List.mem_append.mp hop with h1 | h2
    · exact hp1 op h1
    · exact hp2 op h2

/-- A sweep returns one record per pin, and its transactions fall into one
segment per pin, in the order of the pins. -/
theorem sweep_at_valid (behind : Nat → Nat) (t : Target) (o : Opts) :
    ∀ (es : List pin_info) (b : Bus), (∀ e ∈ es, e.ch_idx < 8) →
    ∃ sts b1, sweep_at behind t o es b = some (sts, b1) ∧ sts.length = es.length ∧
      ∃ segs, b1.log = b.log ++ segs.flatten ∧
        List.Forall₂ (fun p seg => ∀ op ∈ seg, pin_op_at behind p op = true) es segs := by
  intro es
  induction es with
  | nil =>
    intro b _
    exact ⟨[], b, rfl, rfl, [], by simp, List.Forall₂.nil⟩
  | cons p ps ih =>
    intro b hv
    have hch := hv p (List.mem_cons_self _ _)
    obtain ⟨st, b1, hp, _, seg, hl, hseg⟩ := pin_stats_at_valid behind t o p b hch
    obtain ⟨sts, b2, hs, hlen, segs, hl2, hf⟩ :=
      ih b1 (fun e he => hv e (List.mem_cons_of_mem _ he))
    refine ⟨st :: sts, b2, by simp only [sweep_at, hp, hs], by simp [hlen], seg :: segs, ?_,
      List.Forall₂.cons hseg hf⟩
    rw [hl2, hl]
    simp

/-- The pointer walk of print_pin_info over count entries from index idx is the
sweep over these entries, each record written as the line of its pin. -/
theorem print_pins_at_eq_sweep (behind : Nat → Nat) (t : Target) (o : Opts)
    (tbl : List pin_info) :
    ∀ (cnt idx : Nat) (b : Bus) (es : List pin_info),
      (tbl.drop idx).take cnt = es → es.length = cnt →
      print_pins_at behind t o tbl idx cnt b =
        (sweep_at behind t o es b).map
          (fun r => (List.zipWith (report_line t o) es r.1, r.2)) := by
  intro cnt
  induction cnt with
  | zero =>
    intro idx b es _ hlen
    have hnil : es = [] := List.length_eq_zero.mp hlen
    subst hnil
    rfl
  | succ k ih =>
    intro idx b es htake hlen
    cases hdrop : tbl.drop idx with
    | nil =>
      rw [hdrop] at htake
      simp only [List.take_nil] at htake
      rw [← htake] at hlen
      simp at hlen
    | cons x xs =>
      rw [hdrop, List.take_succ_cons] at htake
      have hget : tbl[idx]? = some x := by
        have h := List.head?_drop tbl idx
        rw [hdrop] at h
        simpa using h.symm
      have hxs : tbl.drop (idx + 1) = xs := by
        rw [← List.tail_drop, hdrop]
        rfl
      subst htake
      have hlen2 : (xs.take k).length = k := by simpa using hlen
      have hrec := ih (idx + 1)
      rw [hxs] at hrec
      unfold print_pins_at sweep_at
      simp only [hget]
      cases hp : pin_stats_at behind t o x b with
      | none => rfl
      | some r =>
        obtain ⟨st, b1⟩ := r
        simp only
        rw [hrec b1 (xs.take k) rfl hlen2]
        cases hs : sweep_at behind t o (xs.take k) b1 with
        | none => rfl
        | some r2 =>
          obtain ⟨sts, b2⟩ := r2
          simp [report_line]

theorem tables_ch_idx : ∀ kt ∈ HEADERS, ∀ e ∈ kt.2, e.ch_idx < 8 := by
  decide

theorem to_char_range (t : Target) (x : Int) : -128 ≤ to_char t x ∧ to_char t x ≤ 255 := by
  unfold to_char
  simp only
  split
  · rename_i h
    simp only [Bool.and_eq_true, decide_eq_true_eq] at h
    omega
  · omega

theorem parse_name_pin_range (t : Target) (name : List Char) :
    -128 ≤ (parse_name t name).2 ∧ (parse_name t name).2 ≤ 255 := by
  unfold parse_name
  simp only
  split
  · exact to_char_range t _
  · omega

/-- A resolved span of at least one entry lies in one of the nine header
tables, from index 1 on. -/
theorem resolve_span_bounds (sgn : Bool) (name : List Char) (s : Span)
    (h : resolve (lp64 sgn) name = some s) (hk : 1 ≤ s.cnt) :
    (∃ kt ∈ HEADERS, s.tbl = kt.2) ∧ 1 ≤ s.start ∧ s.start + s.cnt ≤ s.tbl.length := by
  have hrange := parse_name_pin_range (lp64 sgn) name
  unfold resolve at h
  rcases hp : parse_name (lp64 sgn) name with ⟨hn, pin_no⟩
  rw [hp] at h hrange
  cases hn with
  | none => simp at h
  | some h_name =>
    simp only [Option.some.injEq] at h
    rcases header_info_cases (lp64 sgn) h_name pin_no with h0 | ⟨kt, hkt, hbr⟩
    · rw [h0] at h
      rw [← h] at hk
      simp at hk
    · obtain ⟨hl1, hl2⟩ := header_tables_length kt hkt
      obtain ⟨ht, hs, hc⟩ := header_branch_bounds sgn kt.2 pin_no hl1 hl2 hrange.1 hrange.2
      rw [hbr] at h
      rw [← h]
      exact ⟨⟨kt, hkt, ht⟩, hs, by rw [ht]; exact hc⟩

/-- C17: on a target with 8-byte pointers, for every identifier whose resolved
span has k >= 1 entries starting at the table index s, print_pin_info, run as
compiled (whatever byte lies behind ADC_ADDR for an unused entry), computes
exactly k statistics records, one per pin, in span order: the records are
those of the sweep that takes the entries at the indices s, s + 1, .. one
after the other, each line carries the name of its entry, and the transactions
fall into k consecutive segments, the i-th holding transactions of the i-th
entry only. -/
theorem print_pin_info_span_order (behind : Nat → Nat) (sgn : Bool) (o : Opts) (b : Bus)
    (name : List Char) (s : Span)
    (hres : resolve (lp64 sgn) name = some s) (hk : 1 ≤ s.cnt) :
    ∃ es sts b1, Span.entries s = some es ∧
      es = (s.tbl.drop s.start).take s.cnt ∧ es.length = s.cnt ∧
      sweep_at behind (lp64 sgn) o es b = some (sts, b1) ∧ sts.length = s.cnt ∧
      print_pin_info_at behind (lp64 sgn) o b name
        = some ((if o.opt_view = 0 then [Out.banner] else [])
            ++ List.zipWith (report_line (lp64 sgn) o) es sts ++ [Out.newline], b1) ∧
      ∃ segs, b1.log = b.log ++ segs.flatten ∧
        List.Forall₂ (fun p seg => ∀ op ∈ seg, pin_op_at behind p op = true) es segs := by
  have hcnt : s.cnt ≠ 0 := by omega
  obtain ⟨⟨kt, hkt, htbl⟩, hstart, hin⟩ := resolve_span_bounds sgn name s hres hk
  have hes : Span.entries s = some ((s.tbl.drop s.start).take s.cnt) := by
    unfold Span.entries
    rw [if_neg hcnt, if_pos hin]
  have hlen : ((s.tbl.drop s.start).take s.cnt).length = s.cnt := by
    rw [List.length_take, List.length_drop]; omega
  have hvalid : ∀ e ∈ (s.tbl.drop s.start).take s.cnt, e.ch_idx < 8 := by
    intro e he
    apply tables_ch_idx kt hkt e
    rw [← htbl]
    exact List.mem_of_mem_drop (List.mem_of_mem_take he)
  obtain ⟨sts, b1, hsw, hsl, segs, hlog, hf⟩ :=
    sweep_at_valid behind (lp64 sgn) o _ b hvalid
  refine ⟨_, sts, b1, hes, rfl, hlen, hsw, by rw [hsl, hlen], ?_, segs, hlog, hf⟩
  unfold print_pin_info_at
  simp only [hres, hcnt, ne_eq, not_false_eq_true, if_true]
  rw [print_pins_at_eq_sweep behind (lp64 sgn) o s.tbl s.cnt s.start b _ rfl hlen, hsw]
  rfl

/-- The identifier "P3": ten records P3.1 .. P3.10 in span order, the unused
entries P3.1, P3.4, P3.7 and P3.10 included. -/
theorem print_pin_info_span_order_witness :
    (resolve (lp64 true) "P3".toList = some ⟨HEADER_P3, 1, 10⟩ ∧
      1 ≤ (⟨HEADER_P3, 1, 10⟩ : Span).cnt) ∧
    (∃ es sts b1, Span.entries ⟨HEADER_P3, 1, 10⟩ = some es ∧
      es = ((⟨HEADER_P3, 1, 10⟩ : Span).tbl.drop 1).take 10 ∧ es.length = 10 ∧
      sweep_at (fun _ => 0xC8) (lp64 true) ⟨0, 1, 0⟩ es (const_bus 0x34F2) = some (sts, b1) ∧
      sts.length = 10 ∧
      print_pin_info_at (fun _ => 0xC8) (lp64 true) ⟨0, 1, 0⟩ (const_bus 0x34F2) "P3".toList
        = some ((if (⟨0, 1, 0⟩ : Opts).opt_view = 0 then [Out.banner] else [])
            ++ List.zipWith (report_line (lp64 true) ⟨0, 1, 0⟩) es sts ++ [Out.newline], b1) ∧
      ∃ segs, b1.log = (const_bus 0x34F2).log ++ segs.flatten ∧
        List.Forall₂ (fun p seg => ∀ op ∈ seg, pin_op_at (fun _ => 0xC8) p op = true)
          es segs) ∧
    (print_pin_info_at (fun _ => 0xC8) (lp64 true) ⟨0, 1, 0⟩ (const_bus 0x34F2)
        "P3".toList).map Prod.fst
      = some [Out.banner,
          Out.row "P3.1" 4727 4727 4727 0, Out.row "P3.2" 4727 4727 4727 0,
          Out.row "P3.3" 4727 4727 4727 0, Out.row "P3.4" 4727 4727 4727 0,
          Out.row "P3.5" 4727 4727 4727 0, Out.row "P3.6" 4727 4727 4727 0,
          Out.row "P3.7" 4727 4727 4727 0, Out.row "P3.8" 4727 4727 4727 0,
          Out.row "P3.9" 4727 4727 4727 0, Out.row "P3.10" 4727 4727 4727 0,
          Out.newline] :=
  ⟨⟨by decide, by decide⟩,
   print_pin_info_span_order (fun _ => 0xC8) true ⟨0, 1, 0⟩ (const_bus 0x34F2) "P3".toList
     ⟨HEADER_P3, 1, 10⟩ (by decide) (by decide),
   by decide⟩

/-! ## Agreement of the two readings of the table lookup -/

theorem sample_at_routed (behind : Nat → Nat) (o : Opts) (p : pin_info) (b : Bus)
    (hadc : p.adc_idx < 6) : sample_at behind o p b = sample o p b := by
  unfold sample_at sample
  rw [read_pin_value_at_routed behind p b hadc]

theorem iter_loop_at_routed (behind : Nat → Nat) (t : Target) (o : Opts) (p : pin_info)
    (hadc : p.adc_idx < 6) :
    ∀ (k : Nat) (a : Acc) (b : Bus),
      iter_loop_at behind t o p k a b = iter_loop t o p k a b := by
  intro k
  induction k with
  | zero => intro a b; rfl
  | succ k ih =>
    intro a b
    unfold iter_loop_at iter_loop
    rw [sample_at_routed behind o p b hadc]
    cases sample o p b with
    | none => rfl
    | some r => exact ih _ _

/-- For a pin routed to a chip slot the statistics computed as compiled are
those of pin_stats. -/
theorem pin_stats_at_routed (behind : Nat → Nat) (t : Target) (o : Opts) (p : pin_info)
    (b : Bus) (hadc : p.adc_idx < 6) :
    pin_stats_at behind t o p b = pin_stats t o p b := by
  unfold pin_stats_at pin_stats
  rw [sample_at_routed behind o p b hadc]
  cases sample o p b with
  | none => rfl
  | some r =>
    simp only
    rw [iter_loop_at_routed behind t o p hadc]

end Ltc2309
